import Mathlib

/-!
# Verification of the `TThreadSafe` reader/writer task system

The repository (src/ThreadSafe.h) declares a wrapper `TThreadSafe<ResourceType>`
over a thread-unsafe resource.  Access goes through `Sync` (blocking, inline) or
`Async` (a scheduled task with an optional prerequisite set), under a
"multiple readers or single writer" admission policy.  The header is an
interface sketch: the bodies of the coordinator, scheduler and task machinery
are not in the repository, so those components are modelled here from the
specification, and the claims are settled against these models.

The file is organised as definitions first, then theorems.
-/

namespace AsyncResource

/-! ## Generic step-machine runner -/

/-- Generic runner for a guarded step function over a list of events: it applies
the step to each event in turn and fails (returns `none`) as soon as one step is
not enabled.  All the state machines below are run with it. -/
def runM {σ ε : Type} (f : σ → ε → Option σ) : σ → List ε → Option σ
  | s, [] => some s
  | s, e :: es =>
    match f s e with
    | some s' => runM f s' es
    | none => none

/-- The state after processing the first `k` events of a trace. -/
def stA {σ ε : Type} (f : σ → ε → Option σ) (s0 : σ) (tr : List ε) (k : Nat) : Option σ :=
  runM f s0 (tr.take k)

/-! ## Access Coordinator counters (spec §4.3, §3)

Modelled from the spec: the repository contains no coordinator implementation,
only the policy comment (src/ThreadSafe.h lines 9-10).  Spec §3: the
coordinator state is a "current admitted-reader count and a boolean indicating
an admitted writer"; §4.3 gives the four operations.  Blocking is modelled as
guarded enabling: an operation whose admission condition does not hold is not
enabled (`none`), the caller stays blocked. -/

structure CoordState where
  readers : Nat
  writer : Bool
deriving DecidableEq, Repr

/-- The four coordinator operations of spec §4.3. -/
inductive CoordOp
  | admitRO
  | releaseRO
  | admitRW
  | releaseRW
deriving DecidableEq, Repr

/-- Modelled from the spec (§4.3): `admitReadOnly` waits until no writer is
admitted then increments the reader count; `releaseReadOnly` decrements it;
`admitReadWrite` waits until the reader count is zero and no writer is admitted,
then sets the writer flag; `releaseReadWrite` clears it. -/
def applyOp (s : CoordState) : CoordOp → Option CoordState
  | .admitRO => if s.writer then none else some ⟨s.readers + 1, s.writer⟩
  | .releaseRO => if s.readers = 0 then none else some ⟨s.readers - 1, s.writer⟩
  | .admitRW => if s.writer = false ∧ s.readers = 0 then some ⟨s.readers, true⟩ else none
  | .releaseRW => if s.writer then some ⟨s.readers, false⟩ else none

def coordInit : CoordState := ⟨0, false⟩

/-- Number of admitted writers encoded by the writer flag. -/
def writerCount (s : CoordState) : Nat := if s.writer then 1 else 0

/-- The coordinator invariant of spec §3: readers and a writer are never
admitted simultaneously, and at most one writer is admitted. -/
def CoordInv (s : CoordState) : Prop :=
  ¬(0 < s.readers ∧ s.writer = true) ∧ writerCount s ≤ 1

/-! ## Execution-trace machine (spec §8, §2)

Modelled from the spec: the repository has no executable scheduler, so the
observable execution windows of tasks are modelled as traces of begin/finish
events.  A `start id m` event is the moment a worker begins executing task
`id` under mode `m` (admission has been granted); `finish id` is the moment
its accessor returns and the admission is released.  The guard on `start`
is the reader/writer policy of src/ThreadSafe.h lines 9-10: "Either multiple
read-only tasks are executed concurrently or a single read-write task". -/

/-- Access mode of a task: read-only (`const ResourceType&` parameter) or
read-write (`ResourceType&` parameter). -/
inductive Mode
  | ro
  | rw
deriving DecidableEq, Repr

inductive Ev
  | start (id : Nat) (m : Mode)
  | finish (id : Nat)
deriving DecidableEq, Repr

/-- Trace-machine state: the tasks currently executing (with their modes) and
the ids that have ever started (each task starts at most once). -/
structure TraceState where
  active : List (Nat × Mode)
  used : List Nat
deriving DecidableEq, Repr

/-- One step of the execution-trace machine.  A read-only start requires every
currently executing task to be read-only; a read-write start requires that
nothing is executing; a finish requires the task to be executing. -/
def evStep (s : TraceState) : Ev → Option TraceState
  | .start id m =>
    if id ∈ s.used then none
    else
      match m with
      | .ro =>
        if s.active.all (fun p => decide (p.2 = Mode.ro)) then
          some ⟨(id, m) :: s.active, id :: s.used⟩
        else none
      | .rw =>
        if s.active = [] then some ⟨(id, m) :: s.active, id :: s.used⟩ else none
  | .finish id =>
    if s.active.any (fun p => decide (p.1 = id)) then
      some ⟨s.active.filter (fun p => decide (p.1 ≠ id)), s.used⟩
    else none

def traceInit : TraceState := ⟨[], []⟩

/-- A trace is valid when every event in it was enabled when it occurred. -/
def ValidTrace (tr : List Ev) : Prop :=
  (runM evStep traceInit tr).isSome = true

/-- A demonstration trace in which two read-only tasks execute concurrently:
task 2 starts inside task 1's execution window. -/
def roDemo : List Ev := [.start 1 .ro, .start 2 .ro, .finish 1, .finish 2]

/-- A demonstration trace with one read-only task followed by a read-write
task, used to instantiate the mutual-exclusion theorem. -/
def exclDemo : List Ev := [.start 5 .ro, .finish 5, .start 7 .rw, .finish 7]

/-! ## Task scheduler (spec §4.4, §4.5, §4.6, §3)

Modelled from the spec: the repository declares `Sync`, `Async` and the task
handle (src/ThreadSafe.h lines 20-42) but contains no scheduler body.  The
resource is modelled by the example payload (`FResource` holds one `int`,
src/ThreadSafe.h lines 47-63), so the resource state is an `Int`.  An accessor
is a function of the resource; the constructor records the declared parameter
qualification of src/ThreadSafe.h lines 6-8: `ro` takes the resource by
immutable (`const&`) view and can only return a value, `rw` takes it mutably
and returns the updated resource together with its value.  Accessor failure
is an `Except` error (spec §7 (a)). -/

inductive Accessor
  | ro (f : Int → Except String Int)
  | rw (f : Int → Except String (Int × Int))

/-- The AccessMode Classifier of spec §4.1: the mode is read solely off the
declared parameter qualification (which constructor the accessor uses). -/
def classify : Accessor → Mode
  | .ro _ => .ro
  | .rw _ => .rw

/-- Task errors of spec §7: the accessor's own failure, or the failure of a
named prerequisite (fail-fast propagation). -/
inductive TErr
  | accessorFailure (msg : String)
  | depFailure (pre : Nat)
deriving DecidableEq, Repr

/-- Task completion states of spec §3 (`Admitted` is subsumed into the start
transition: a task moves from `pending` to `running` at the step where the
coordinator admits it and a worker picks it up). -/
inductive TStatus
  | pending
  | running
  | completed (v : Int)
  | failed (e : TErr)
deriving DecidableEq, Repr

/-- A Task of spec §3: the bound accessor, its declared mode, its prerequisite
set and its completion state (holding the stored result when terminal). -/
structure TaskRec where
  accessor : Accessor
  mode : Mode
  prereqs : List Nat
  status : TStatus

/-- Scheduler state: the task table keyed by task id, the resource payload,
the next fresh task id, and the log of task ids whose accessor has started
executing (used to state that an accessor never ran). -/
structure SchedState where
  tasks : List (Nat × TaskRec)
  resource : Int
  nextId : Nat
  execLog : List Nat

def lookupT (tasks : List (Nat × TaskRec)) (id : Nat) : Option TaskRec :=
  (tasks.find? (fun p => decide (p.1 = id))).map Prod.snd

def findTask (s : SchedState) (id : Nat) : Option TaskRec :=
  lookupT s.tasks id

def schedInit (res : Int) : SchedState := ⟨[], res, 0, []⟩

/-- The prerequisite ids stored on a task ([] for an unknown id). -/
def preds (tasks : List (Nat × TaskRec)) (id : Nat) : List Nat :=
  match lookupT tasks id with
  | some t => t.prereqs
  | none => []

/-- Transitive closure of the prerequisite relation starting from `acc`,
computed with enough fuel; used for cycle detection at submission time
(spec §4.4 algorithmic note, §9). -/
def reach (tasks : List (Nat × TaskRec)) : Nat → List Nat → List Nat
  | 0, acc => acc
  | fuel + 1, acc =>
    let fresh := (List.flatten (acc.map (preds tasks))).filter (fun x => decide (x ∉ acc))
    if fresh = [] then acc else reach tasks fuel (acc ++ fresh)

inductive SubmitErr
  | cycleError
deriving DecidableEq, Repr

/-- Modelled from the spec (§4.4, §7 (c)): `submit` validates the prerequisite
set; if its transitive closure would contain the new task's own id the
submission is rejected synchronously with `cycleError` and the scheduler state
is returned unchanged; otherwise the new task is created in `pending` state
with the mode classified at bind time. -/
def submit (s : SchedState) (a : Accessor) (ps : List Nat) :
    Except SubmitErr Nat × SchedState :=
  if s.nextId ∈ reach s.tasks (s.tasks.length + 1) ps then (.error .cycleError, s)
  else
    (.ok s.nextId,
      { tasks := s.tasks ++ [(s.nextId, ⟨a, classify a, ps, .pending⟩)],
        resource := s.resource, nextId := s.nextId + 1, execLog := s.execLog })

def updStatus (tasks : List (Nat × TaskRec)) (id : Nat) (st : TStatus) :
    List (Nat × TaskRec) :=
  tasks.map (fun p => if p.1 = id then (p.1, { p.2 with status := st }) else p)

def isCompleted : TStatus → Bool
  | .completed _ => true
  | _ => false

def isFailed : TStatus → Bool
  | .failed _ => true
  | _ => false

def isRunning : TStatus → Bool
  | .running => true
  | _ => false

/-- Terminal completion states (spec §3: Completed/Failed is terminal). -/
def terminalSt (st : TStatus) : Bool := isCompleted st || isFailed st

/-- All prerequisites have completed successfully (spec §4.4: a failed
prerequisite leads to `failDep`, not to execution). -/
def prereqsCompleted (s : SchedState) (ps : List Nat) : Bool :=
  ps.all (fun q =>
    match findTask s q with
    | some t => isCompleted t.status
    | none => false)

/-- The named prerequisite exists and has failed. -/
def prereqFailed (s : SchedState) (pre : Nat) : Bool :=
  match findTask s pre with
  | some tp => isFailed tp.status
  | none => false

/-- The coordinator's admission decision inside the scheduler (spec §2, §4.3):
a read-write task requires that nothing is running; a read-only task requires
that no read-write task is running. -/
def admissionOk (s : SchedState) (m : Mode) : Bool :=
  match m with
  | .rw => !(s.tasks.any (fun p => isRunning p.2.status))
  | .ro => !(s.tasks.any (fun p => isRunning p.2.status && decide (p.2.mode = Mode.rw)))

/-- Running an accessor against the resource: result value (or error) and the
resource afterwards (unchanged for read-only access and on failure). -/
def runAccessor (a : Accessor) (res : Int) : Except String Int × Int :=
  match a with
  | .ro f => (f res, res)
  | .rw f =>
    match f res with
    | .ok (r', v) => (.ok v, r')
    | .error e => (.error e, res)

/-- Scheduler transitions. -/
inductive SStep
  | startT (id : Nat)
  | finishT (id : Nat)
  | failDep (id : Nat) (pre : Nat)
  | submitT (a : Accessor) (ps : List Nat)

/-- Modelled from the spec (§4.4, §3 lifecycle): `startT` admits and begins a
pending task whose prerequisites have all completed, under the coordinator's
policy; `finishT` executes the accessor of a running task, stores its result
or failure and releases the admission; `failDep` marks a pending task Failed
because a named prerequisite failed, without executing its accessor;
`submitT` creates a task via `submit`. -/
def sstep (s : SchedState) : SStep → Option SchedState
  | .startT id =>
    match findTask s id with
    | some t =>
      if t.status = .pending ∧ prereqsCompleted s t.prereqs = true ∧
          admissionOk s t.mode = true then
        some { s with tasks := updStatus s.tasks id .running, execLog := s.execLog ++ [id] }
      else none
    | none => none
  | .finishT id =>
    match findTask s id with
    | some t =>
      if t.status = .running then
        match runAccessor t.accessor s.resource with
        | (.ok v, r') =>
          some { s with tasks := updStatus s.tasks id (.completed v), resource := r' }
        | (.error e, r') =>
          some { s with
                 tasks := updStatus s.tasks id (.failed (.accessorFailure e)),
                 resource := r' }
      else none
    | none => none
  | .failDep id pre =>
    match findTask s id with
    | some t =>
      if t.status = .pending ∧ pre ∈ t.prereqs ∧ prereqFailed s pre = true then
        some { s with tasks := updStatus s.tasks id (.failed (.depFailure pre)) }
      else none
    | none => none
  | .submitT a ps =>
    match submit s a ps with
    | (.ok _, s') => some s'
    | (.error _, _) => none

/-- `getResult` on a completion handle for task `id` (spec §4.5): available
exactly when the task is terminal; returns the stored value or propagates the
stored failure.  `none` means the caller is still blocked waiting. -/
def getRes (s : SchedState) (id : Nat) : Option (Except TErr Int) :=
  match findTask s id with
  | some t =>
    match t.status with
    | .completed v => some (.ok v)
    | .failed e => some (.error e)
    | _ => none
  | none => none

/-- Modelled from the spec (§4.6): `Sync` classifies the accessor, admits the
calling thread directly, executes the accessor inline and returns its result
(or failure) synchronously, together with the resource afterwards. -/
def Sync (res : Int) (a : Accessor) : Except String Int × Int :=
  runAccessor a res

/-- Embeds a raw accessor outcome into the stored-task error taxonomy
(spec §7 (a)). -/
def embedErr : Except String Int → Except TErr Int
  | .ok v => .ok v
  | .error e => .error (.accessorFailure e)

/-- The `Async(fn).GetResult()` path with no prerequisites, starting from a
fresh scheduler over the given resource state: submit, admit/start, execute,
then read the handle, also reporting the resource afterwards. -/
def asyncGetResult (res : Int) (a : Accessor) : Option (Except TErr Int) × Int :=
  match submit (schedInit res) a [] with
  | (.ok id, s1) =>
    match sstep s1 (.startT id) with
    | some s2 =>
      match sstep s2 (.finishT id) with
      | some s3 => (getRes s3 id, s3.resource)
      | none => (none, res)
    | none => (none, res)
  | (.error _, _) => (none, res)

/-! ### Demonstration accessors and scenario states (used by witnesses) -/

/-- A read-only accessor returning the current resource value. -/
def demoAcc : Accessor := .ro (fun r => .ok r)

/-- A read-only accessor that always fails. -/
def failAcc : Accessor := .ro (fun _ => .error "boom")

/-- A read-write accessor that sets the resource to 42 and returns 0. -/
def writeAcc : Accessor := .rw (fun _ => .ok (42, 0))

/-- Scenario: a failing task, a dependent task, execution of the first, then
fail-fast propagation to the second. -/
def c3Steps : List SStep :=
  [.submitT failAcc [], .submitT demoAcc [0], .startT 0, .finishT 0, .failDep 1 0]

/-- The state just before the propagation step of `c3Steps`. -/
def c3Pre : SchedState :=
  { tasks := [(0, ⟨failAcc, Mode.ro, [], .failed (.accessorFailure "boom")⟩),
              (1, ⟨demoAcc, Mode.ro, [0], .pending⟩)],
    resource := 0, nextId := 2, execLog := [0] }

/-- The state after running `c3Steps`. -/
def c3State : SchedState :=
  { tasks := [(0, ⟨failAcc, Mode.ro, [], .failed (.accessorFailure "boom")⟩),
              (1, ⟨demoAcc, Mode.ro, [0], .failed (.depFailure 0)⟩)],
    resource := 0, nextId := 2, execLog := [0] }

/-- A scheduler state whose prerequisite graph reaches the fresh id 9 from
task 3 (3 → 7 → 9), so submitting with prerequisite 3 is cyclic. -/
def c4State : SchedState :=
  { tasks := [(3, ⟨demoAcc, Mode.ro, [7], .pending⟩),
              (7, ⟨demoAcc, Mode.ro, [9], .pending⟩)],
    resource := 0, nextId := 9, execLog := [] }

/-- Scenario: a write task, a dependent read task, execution of the write,
then admission of the read. -/
def c5Steps : List SStep :=
  [.submitT writeAcc [], .submitT demoAcc [0], .startT 0, .finishT 0, .startT 1]

/-- The state just before the final `startT 1` of `c5Steps`. -/
def c5Pre : SchedState :=
  { tasks := [(0, ⟨writeAcc, Mode.rw, [], .completed 0⟩),
              (1, ⟨demoAcc, Mode.ro, [0], .pending⟩)],
    resource := 42, nextId := 2, execLog := [0] }

/-- The state after running `c5Steps`. -/
def c5State : SchedState :=
  { tasks := [(0, ⟨writeAcc, Mode.rw, [], .completed 0⟩),
              (1, ⟨demoAcc, Mode.ro, [0], .running⟩)],
    resource := 42, nextId := 2, execLog := [0, 1] }

/-- The state after submitting `demoAcc` to a fresh scheduler. -/
def c6State : SchedState :=
  { tasks := [(0, ⟨demoAcc, Mode.ro, [], .pending⟩)],
    resource := 0, nextId := 1, execLog := [] }

/-- `c6State` after the task has been admitted and started. -/
def c6StateB : SchedState :=
  { tasks := [(0, ⟨demoAcc, Mode.ro, [], .running⟩)],
    resource := 0, nextId := 1, execLog := [0] }

/-- A state holding one task that failed with an accessor error. -/
def c7a : SchedState :=
  { tasks := [(0, ⟨failAcc, Mode.ro, [], .failed (.accessorFailure "boom")⟩)],
    resource := 0, nextId := 1, execLog := [0] }

/-- `c7a` after an unrelated later submission. -/
def c7b : SchedState :=
  { tasks := [(0, ⟨failAcc, Mode.ro, [], .failed (.accessorFailure "boom")⟩),
              (1, ⟨demoAcc, Mode.ro, [], .pending⟩)],
    resource := 0, nextId := 2, execLog := [0] }

/-- Per-task invariant: the mode was classified at bind time; a pending task's
accessor has not executed; a dependency-failed task names a failed
prerequisite among its own prerequisites and its accessor never executed; a
running or completed task had all its prerequisites terminal. -/
def TaskInv (s : SchedState) (id : Nat) (t : TaskRec) : Prop :=
  t.mode = classify t.accessor ∧
  (t.status = .pending → id ∉ s.execLog) ∧
  (∀ q, t.status = .failed (.depFailure q) →
      q ∈ t.prereqs ∧ (∃ tq e, findTask s q = some tq ∧ tq.status = .failed e) ∧
      id ∉ s.execLog) ∧
  ((t.status = .running ∨ ∃ v, t.status = .completed v) →
      ∀ q ∈ t.prereqs, ∃ tq, findTask s q = some tq ∧ terminalSt tq.status = true)

/-- Scheduler invariant: task ids and the execution log are below the fresh-id
counter, and every task satisfies its per-task invariant. -/
def SchedInv (s : SchedState) : Prop :=
  (∀ p ∈ s.tasks, p.1 < s.nextId) ∧
  (∀ x ∈ s.execLog, x < s.nextId) ∧
  (∀ id t, findTask s id = some t → TaskInv s id t)

/-! ## Admission queue with writer priority (spec §4.3 fairness)

Modelled from the spec: the repository contains no coordinator queue; spec
§4.3 requires that once a read-write admission request is queued, no newly
arriving read-only request is admitted ahead of it, that readers admitted
before the writer's request finish normally, and that queued writers are
admitted FIFO by request order. -/

/-- Admission-queue events: a request arrives (is queued), is granted
admission, or departs (releases its admission). -/
inductive QEv
  | arrive (id : Nat) (m : Mode)
  | grant (id : Nat)
  | depart (id : Nat)
deriving DecidableEq, Repr

/-- Queue-machine state: the FIFO queue of waiting requests, the admitted
requests, and the ids ever seen (each request id arrives at most once). -/
structure QState where
  queue : List (Nat × Mode)
  active : List (Nat × Mode)
  seen : List Nat
deriving DecidableEq, Repr

def qlookup (l : List (Nat × Mode)) (id : Nat) : Option Mode :=
  (l.find? (fun p => decide (p.1 = id))).map Prod.snd

/-- No read-write request is queued strictly ahead of `id` (`false` when `id`
is not in the queue at all). -/
def noRwAhead : List (Nat × Mode) → Nat → Bool
  | [], _ => false
  | (j, m) :: rest, id =>
    if j = id then true else decide (m = Mode.ro) && noRwAhead rest id

/-- The reader/writer admission condition: a writer needs an empty active set,
a reader needs all active requests to be readers. -/
def grantOk (active : List (Nat × Mode)) : Mode → Bool
  | .rw => decide (active = [])
  | .ro => active.all (fun p => decide (p.2 = Mode.ro))

/-- Modelled from the spec (§4.3): arrivals queue FIFO (each id at most once);
a request is granted only when the reader/writer condition holds and no
read-write request that arrived earlier is still queued (writer priority, and
FIFO among writers); a departure releases an admitted request. -/
def qstep (s : QState) : QEv → Option QState
  | .arrive id m =>
    if id ∈ s.seen then none
    else some ⟨s.queue ++ [(id, m)], s.active, id :: s.seen⟩
  | .grant id =>
    match qlookup s.queue id with
    | some m =>
      if noRwAhead s.queue id = true ∧ grantOk s.active m = true then
        some ⟨s.queue.filter (fun p => decide (p.1 ≠ id)), (id, m) :: s.active, s.seen⟩
      else none
    | none => none
  | .depart id =>
    match qlookup s.active id with
    | some _ => some ⟨s.queue, s.active.filter (fun p => decide (p.1 ≠ id)), s.seen⟩
    | none => none

def qInit : QState := ⟨[], [], []⟩

/-- A queue trace is valid when every event was enabled when it occurred. -/
def ValidQTrace (tr : List QEv) : Prop :=
  (runM qstep qInit tr).isSome = true

/-- The arrival requests of a trace, in arrival order. -/
def arrivedIn : List QEv → List (Nat × Mode)
  | [] => []
  | .arrive id m :: rest => (id, m) :: arrivedIn rest
  | .grant _ :: rest => arrivedIn rest
  | .depart _ :: rest => arrivedIn rest

/-- The granted ids of a trace. -/
def grantedIn : List QEv → List Nat
  | [] => []
  | .grant id :: rest => id :: grantedIn rest
  | .arrive _ _ :: rest => grantedIn rest
  | .depart _ :: rest => grantedIn rest

/-- A demonstration queue trace: a writer arrives, a reader arrives after it,
the writer is granted first. -/
def qDemo : List QEv :=
  [.arrive 1 .rw, .arrive 2 .ro, .grant 1, .depart 1, .grant 2]

/-- A queue state with one admitted reader. -/
def qActiveDemo : QState := ⟨[], [(5, Mode.ro)], [5]⟩

/-! ## C++ type model for the `Async` result-type deduction

src/ThreadSafe.h lines 32-34 deduce the completion-handle result type as
`decltype(std::declval<AccessorType>(std::declval<ResourceType>()))`, with
the adjacent comment "the result of `Accessor(Resource)` call".
`std::declval<T>` is a function template taking no arguments and returning
`T&&`, so the written expression calls it with one argument and is ill-formed:
substitution produces no result type.  The comment's intent corresponds to
`decltype(std::declval<AccessorType>()(std::declval<ResourceType&>()))`.
Just enough of C++ typing is modelled here to evaluate both expressions. -/

inductive CppType
  | void
  | intT
  | resource
  | constRef (t : CppType)
  | ref (t : CppType)
  | rref (t : CppType)
  | fn (params : List CppType) (ret : CppType)

mutual

/-- Structural equality test on the modelled C++ types. -/
def cppBeq : CppType → CppType → Bool
  | .void, .void => true
  | .intT, .intT => true
  | .resource, .resource => true
  | .constRef t, .constRef u => cppBeq t u
  | .ref t, .ref u => cppBeq t u
  | .rref t, .rref u => cppBeq t u
  | .fn ps r, .fn qs s => cppBeqList ps qs && cppBeq r s
  | _, _ => false

def cppBeqList : List CppType → List CppType → Bool
  | [], [] => true
  | t :: ts, u :: us => cppBeq t u && cppBeqList ts us
  | _, _ => false

end

/-- `add_rvalue_reference`, with reference collapsing (`T& &&` is `T&`). -/
def addRref : CppType → CppType
  | .ref t => .ref t
  | .rref t => .rref t
  | t => .rref t

/-- The type of the name `std::declval<T>`: a function of no parameters
returning `T&&`. -/
def declvalType (t : CppType) : CppType := .fn [] (addRref t)

/-- Whether an argument of the given type/value category binds to a declared
parameter type (the fragment needed here: identity binding, and reference
binding where a non-const lvalue reference does not accept an rvalue). -/
def canBind : CppType → CppType → Bool
  | .constRef t, .rref u => cppBeq t u
  | .constRef t, .ref u => cppBeq t u
  | .constRef t, .constRef u => cppBeq t u
  | .ref t, .ref u => cppBeq t u
  | .rref t, .rref u => cppBeq t u
  | t, u => cppBeq t u

/-- Strip reference qualification from a callee expression's type to reach
the underlying callable. -/
def stripRef : CppType → CppType
  | .ref t => t
  | .rref t => t
  | .constRef t => t
  | t => t

/-- Typing a call expression: the callee must be a function type whose
parameter list matches the arguments in arity and binding. -/
def callType (fnTy : CppType) (args : List CppType) : Option CppType :=
  match fnTy with
  | .fn ps r =>
    if ps.length = args.length ∧
        (List.zip ps args).all (fun pa => canBind pa.1 pa.2) = true then
      some r
    else none
  | _ => none

/-- The result type computed by the source text
`decltype(std::declval<AccessorType>(std::declval<ResourceType>()))`:
`std::declval<AccessorType>` applied to one argument. -/
def sourceResultType (accessorTy resourceTy : CppType) : Option CppType :=
  (callType (declvalType resourceTy) []).bind (fun argTy =>
    callType (declvalType accessorTy) [argTy])

/-- The result type the source's own comment intends — "the result of
`Accessor(Resource)` call":
`decltype(std::declval<AccessorType>()(std::declval<ResourceType&>()))`. -/
def intendedResultType (accessorTy resourceTy : CppType) : Option CppType :=
  (callType (declvalType accessorTy) []).bind (fun acc =>
    (callType (declvalType (.ref resourceTy)) []).bind (fun argTy =>
      callType (stripRef acc) [argTy]))

/-- The modelled type of a read-only accessor on the example resource:
`int Accessor(const FResource&)`. -/
def roAccTy : CppType := .fn [.constRef .resource] .intT

/-- The modelled type of the example's void read-write accessor:
`void Accessor(FResource&)`. -/
def rwVoidAccTy : CppType := .fn [.ref .resource] .void

/-! # Theorems -/

/-! ## Generic runner lemmas -/

theorem runM_append {σ ε : Type} (f : σ → ε → Option σ) (s : σ) (l₁ l₂ : List ε) :
    runM f s (l₁ ++ l₂) = (runM f s l₁).bind (fun s' => runM f s' l₂) := by
  induction l₁ generalizing s with
  | nil => simp [runM]
  | cons e es ih =>
    simp only [List.cons_append, runM]
    cases f s e with
    | none => simp
    | some s' => simpa using ih s'

theorem runM_singleton {σ ε : Type} (f : σ → ε → Option σ) (s : σ) (e : ε) :
    runM f s [e] = f s e := by
  cases h : f s e <;> simp [runM, h]

theorem stA_zero {σ ε : Type} (f : σ → ε → Option σ) (s0 : σ) (tr : List ε) :
    stA f s0 tr 0 = some s0 := rfl

theorem stA_succ {σ ε : Type} (f : σ → ε → Option σ) (s0 : σ) (tr : List ε) (k : Nat) :
    stA f s0 tr (k + 1) =
      (stA f s0 tr k).bind (fun s => match tr[k]? with | some e => f s e | none => some s) := by
  unfold stA
  rw [List.take_succ, runM_append]
  cases he : tr[k]? with
  | none => simp [he, Option.toList, runM]
  | some e => simp [he, Option.toList, runM_singleton]

theorem stA_isSome_of_run {σ ε : Type} (f : σ → ε → Option σ) (s0 : σ) (tr : List ε)
    (h : (runM f s0 tr).isSome) (k : Nat) : (stA f s0 tr k).isSome := by
  have := List.take_append_drop k tr
  rw [← this, runM_append] at h
  unfold stA
  cases hr : runM f s0 (tr.take k) with
  | none => rw [hr] at h; simp at h
  | some s => simp

/-- Extracting the step taken at index `k` of a trace. -/
theorem stA_step_at {σ ε : Type} (f : σ → ε → Option σ) (s0 : σ) (tr : List ε)
    {k : Nat} {e : ε} (he : tr[k]? = some e) {s' : σ}
    (hs' : stA f s0 tr (k + 1) = some s') :
    ∃ s, stA f s0 tr k = some s ∧ f s e = some s' := by
  rw [stA_succ] at hs'
  cases hs : stA f s0 tr k with
  | none => rw [hs] at hs'; cases hs'
  | some s =>
    rw [hs] at hs'
    simp only [he, Option.some_bind] at hs'
    exact ⟨s, rfl, hs'⟩

/-- The run between two intermediate states of a trace. -/
theorem stA_run_between {σ ε : Type} (f : σ → ε → Option σ) (s0 : σ) (tr : List ε)
    {k k' : Nat} (hkk : k ≤ k') {s s' : σ}
    (hs : stA f s0 tr k = some s) (hs' : stA f s0 tr k' = some s') :
    runM f s ((tr.take k').drop k) = some s' := by
  unfold stA at hs hs'
  have h1 : tr.take k' = tr.take k ++ (tr.take k').drop k := by
    have h2 := List.take_append_drop k (tr.take k')
    rw [List.take_take, Nat.min_eq_left hkk] at h2
    exact h2.symm
  rw [h1, runM_append, hs] at hs'
  simpa using hs'

/-- Invariant preservation lifted through `runM`. -/
theorem runM_invariant {σ ε : Type} (f : σ → ε → Option σ) (P : σ → Prop)
    (hstep : ∀ s e s', P s → f s e = some s' → P s') :
    ∀ (l : List ε) (s0 s : σ), P s0 → runM f s0 l = some s → P s := by
  intro l
  induction l with
  | nil => intro s0 s h0 hr; cases hr; exact h0
  | cons e es ih =>
    intro s0 s h0 hr
    unfold runM at hr
    cases hf : f s0 e with
    | none => rw [hf] at hr; cases hr
    | some s1 =>
      rw [hf] at hr
      exact ih s1 s (hstep s0 e s1 h0 hf) hr

/-! ## Coordinator invariant lemmas -/

theorem coordInv_init : CoordInv coordInit := by
  refine ⟨?_, by simp [coordInit, writerCount]⟩
  rintro ⟨h, _⟩
  simp [coordInit] at h

theorem coordInv_step (s : CoordState) (op : CoordOp) (s' : CoordState)
    (hs : CoordInv s) (h : applyOp s op = some s') : CoordInv s' := by
  obtain ⟨h1, h2⟩ := hs
  cases op with
  | admitRO =>
    simp only [applyOp] at h
    split at h
    · cases h
    next hw =>
      cases h
      refine ⟨?_, by simp [writerCount, hw]⟩
      rintro ⟨_, hw2⟩
      exact hw hw2
  | releaseRO =>
    simp only [applyOp] at h
    split at h
    · cases h
    next hr =>
      cases h
      refine ⟨?_, h2⟩
      rintro ⟨hc1, hc2⟩
      exact h1 ⟨by omega, hc2⟩
  | admitRW =>
    simp only [applyOp] at h
    split at h
    next hc =>
      cases h
      have h0 := hc.2
      refine ⟨?_, by simp [writerCount]⟩
      rintro ⟨hr, _⟩
      change 0 < s.readers at hr
      omega
    · cases h
  | releaseRW =>
    simp only [applyOp] at h
    split at h
    next hw =>
      cases h
      refine ⟨?_, by simp [writerCount]⟩
      rintro ⟨_, hfalse⟩
      simp at hfalse
    · cases h

/-! ## Execution-trace lemmas -/

theorem evStep_start_active {s s' : TraceState} {id : Nat} {m : Mode}
    (h : evStep s (.start id m) = some s') :
    s'.active = (id, m) :: s.active ∧ s'.used = id :: s.used := by
  simp only [evStep] at h
  split at h
  · cases h
  · cases m
    · simp only at h
      split at h
      · cases h; exact ⟨rfl, rfl⟩
      · cases h
    · simp only at h
      split at h
      · cases h; exact ⟨rfl, rfl⟩
      · cases h

theorem evStep_finish_active {s s' : TraceState} {id : Nat}
    (h : evStep s (.finish id) = some s') :
    s'.active = s.active.filter (fun p => decide (p.1 ≠ id)) ∧ s'.used = s.used := by
  simp only [evStep] at h
  split at h
  · cases h; exact ⟨rfl, rfl⟩
  · cases h

theorem evStep_start_ro_guard {s s' : TraceState} {id : Nat}
    (h : evStep s (.start id .ro) = some s') :
    ∀ p ∈ s.active, p.2 = Mode.ro := by
  simp only [evStep] at h
  split at h
  · cases h
  · split at h
    next hall =>
      intro p hp
      have := List.all_eq_true.mp hall p hp
      simpa using this
    · cases h

theorem evStep_start_rw_guard {s s' : TraceState} {id : Nat}
    (h : evStep s (.start id .rw) = some s') : s.active = [] := by
  simp only [evStep] at h
  split at h
  · cases h
  · split at h
    next he => exact he
    · cases h

/-- A task that is executing stays in the active set as long as it does not
finish. -/
theorem active_persist (tr : List Ev) (id : Nat) (m : Mode) :
    ∀ (k k' : Nat), k ≤ k' →
      ∀ s, stA evStep traceInit tr k = some s → (id, m) ∈ s.active →
      (∀ f, k ≤ f → f < k' → tr[f]? ≠ some (.finish id)) →
      ∀ s', stA evStep traceInit tr k' = some s' → (id, m) ∈ s'.active := by
  intro k k' hkk
  induction k', hkk using Nat.le_induction with
  | base =>
    intro s hs hm _ s' hs'
    rw [hs] at hs'
    cases hs'
    exact hm
  | succ n hn ih =>
    intro s hs hm hnof s' hs'
    rw [stA_succ] at hs'
    cases hsn : stA evStep traceInit tr n with
    | none => rw [hsn] at hs'; cases hs'
    | some sn =>
      rw [hsn] at hs'
      have hmem : (id, m) ∈ sn.active := by
        apply ih s hs hm ?_ sn hsn
        intro f hf1 hf2
        exact hnof f hf1 (by omega)
      cases he : tr[n]? with
      | none =>
        simp only [he, Option.some_bind] at hs'
        cases hs'
        exact hmem
      | some e =>
        simp only [he, Option.some_bind] at hs'
        cases e with
        | start id2 m2 =>
          rw [(evStep_start_active hs').1]
          exact List.mem_cons_of_mem _ hmem
        | finish id2 =>
          have hne : id ≠ id2 := by
            intro hEq
            exact hnof n hn (by omega) (by rw [he, hEq])
          rw [(evStep_finish_active hs').1]
          refine List.mem_filter.mpr ⟨hmem, ?_⟩
          simp [hne]

/-- Right after `start id m` at position `i`, the task is in the active set. -/
theorem start_opens (tr : List Ev) (i : Nat) (id : Nat) (m : Mode)
    (h : tr[i]? = some (.start id m)) :
    ∀ s', stA evStep traceInit tr (i + 1) = some s' → (id, m) ∈ s'.active := by
  intro s' hs'
  rw [stA_succ] at hs'
  cases hsi : stA evStep traceInit tr i with
  | none => rw [hsi] at hs'; cases hs'
  | some si =>
    rw [hsi] at hs'
    simp only [h, Option.some_bind] at hs'
    rw [(evStep_start_active hs').1]
    exact List.mem_cons_self _ _

/-- Separation of execution windows: if task A starts before task B and at
least one of the two is read-write, then A finishes strictly between the two
starts. -/
theorem start_separated (tr : List Ev) (hv : ValidTrace tr) (i j : Nat)
    (idA idB : Nat) (mA mB : Mode)
    (hA : tr[i]? = some (.start idA mA)) (hB : tr[j]? = some (.start idB mB))
    (hij : i < j) (hrw : mA = .rw ∨ mB = .rw) :
    ∃ f, i < f ∧ f < j ∧ tr[f]? = some (.finish idA) := by
  by_contra hno
  push_neg at hno
  have hval : (runM evStep traceInit tr).isSome := hv
  obtain ⟨s1, hs1⟩ := Option.isSome_iff_exists.mp (stA_isSome_of_run _ _ _ hval (i + 1))
  have hopen1 : (idA, mA) ∈ s1.active := start_opens tr i idA mA hA s1 hs1
  obtain ⟨sj, hsj⟩ := Option.isSome_iff_exists.mp (stA_isSome_of_run _ _ _ hval j)
  have hopenj : (idA, mA) ∈ sj.active := by
    apply active_persist tr idA mA (i + 1) j (by omega) s1 hs1 hopen1 ?_ sj hsj
    intro f hf1 hf2
    exact hno f (by omega) hf2
  obtain ⟨sj1, hsj1⟩ := Option.isSome_iff_exists.mp (stA_isSome_of_run _ _ _ hval (j + 1))
  rw [stA_succ, hsj] at hsj1
  simp only [hB, Option.some_bind] at hsj1
  cases mB with
  | rw =>
    have hemp := evStep_start_rw_guard hsj1
    rw [hemp] at hopenj
    cases hopenj
  | ro =>
    have hmA : mA = Mode.rw := by
      cases hrw with
      | inl h => exact h
      | inr h => cases h
    have := evStep_start_ro_guard hsj1 (idA, mA) hopenj
    rw [hmA] at this
    cases this

/-! ## Scheduler lookup lemmas -/

theorem lookupT_cons (p : Nat × TaskRec) (rest : List (Nat × TaskRec)) (id : Nat) :
    lookupT (p :: rest) id = if p.1 = id then some p.2 else lookupT rest id := by
  by_cases hp : p.1 = id
  · simp [lookupT, List.find?_cons, hp]
  · simp [lookupT, List.find?_cons, hp]

theorem lookupT_updStatus_self (tasks : List (Nat × TaskRec)) (id : Nat) (st : TStatus) :
    lookupT (updStatus tasks id st) id =
      (lookupT tasks id).map (fun t => { t with status := st }) := by
  induction tasks with
  | nil => rfl
  | cons p rest ih =>
    by_cases hp : p.1 = id
    · simp [updStatus, lookupT_cons, hp, ih]
    · simp [updStatus, lookupT_cons, hp, ih]
      simpa [updStatus] using ih

theorem lookupT_updStatus_ne (tasks : List (Nat × TaskRec)) (id id' : Nat) (st : TStatus)
    (h : id' ≠ id) :
    lookupT (updStatus tasks id st) id' = lookupT tasks id' := by
  induction tasks with
  | nil => rfl
  | cons p rest ih =>
    have hhead : updStatus (p :: rest) id st =
        (if p.1 = id then (p.1, { p.2 with status := st }) else p) :: updStatus rest id st := rfl
    rw [hhead, lookupT_cons, lookupT_cons]
    by_cases hp : p.1 = id
    · rw [if_pos hp]
      have hne : p.1 ≠ id' := by
        rw [hp]
        exact fun hh => h hh.symm
      rw [if_neg (show ¬((p.1, { p.2 with status := st }) : Nat × TaskRec).1 = id' from hne),
        if_neg hne]
      exact ih
    · rw [if_neg hp]
      by_cases hq : p.1 = id'
      · rw [if_pos hq, if_pos hq]
      · rw [if_neg hq, if_neg hq]
        exact ih

theorem lookupT_append_left {t1 : List (Nat × TaskRec)} (t2 : List (Nat × TaskRec))
    {id : Nat} {t : TaskRec} (h : lookupT t1 id = some t) :
    lookupT (t1 ++ t2) id = some t := by
  induction t1 with
  | nil => cases h
  | cons p rest ih =>
    rw [lookupT_cons] at h
    by_cases hp : p.1 = id
    · rw [if_pos hp] at h
      simpa [lookupT_cons, hp] using h
    · rw [if_neg hp] at h
      simpa [lookupT_cons, hp] using ih h

theorem lookupT_append_right {t1 : List (Nat × TaskRec)} (t2 : List (Nat × TaskRec))
    {id : Nat} (h : lookupT t1 id = none) :
    lookupT (t1 ++ t2) id = lookupT t2 id := by
  induction t1 with
  | nil => rfl
  | cons p rest ih =>
    rw [lookupT_cons] at h
    by_cases hp : p.1 = id
    · rw [if_pos hp] at h; cases h
    · rw [if_neg hp] at h
      simpa [lookupT_cons, hp] using ih h

theorem updStatus_keys (tasks : List (Nat × TaskRec)) (id : Nat) (st : TStatus) :
    (updStatus tasks id st).map Prod.fst = tasks.map Prod.fst := by
  induction tasks with
  | nil => rfl
  | cons p rest ih =>
    by_cases hp : p.1 = id <;> simp [updStatus, hp] <;> simpa [updStatus] using ih

theorem lookupT_eq_none_of_lt (tasks : List (Nat × TaskRec)) (id : Nat)
    (h : ∀ p ∈ tasks, p.1 < id) : lookupT tasks id = none := by
  induction tasks with
  | nil => rfl
  | cons p rest ih =>
    have hp : p.1 ≠ id := Nat.ne_of_lt (h p (List.mem_cons_self _ _))
    rw [lookupT_cons, if_neg hp]
    exact ih (fun q hq => h q (List.mem_cons_of_mem _ hq))

/-- The starting set is contained in its own prerequisite closure. -/
theorem reach_superset (tasks : List (Nat × TaskRec)) :
    ∀ (fuel : Nat) (acc : List Nat), ∀ x ∈ acc, x ∈ reach tasks fuel acc := by
  intro fuel
  induction fuel with
  | zero => intro acc x hx; simpa [reach] using hx
  | succ n ih =>
    intro acc x hx
    rw [reach]
    split
    · exact hx
    · exact ih _ x (List.mem_append_left _ hx)

/-! ## Master step-evolution lemma

How one scheduler step can change one task: its accessor, mode and
prerequisites never change, and its status either stays put, goes from
pending to running, goes from pending to a dependency failure naming a failed
prerequisite, or goes from running to a terminal state. -/

theorem sstep_evolution {s s' : SchedState} {e : SStep} (h : sstep s e = some s')
    {id : Nat} {t : TaskRec} (ht : findTask s id = some t) :
    ∃ t', findTask s' id = some t' ∧ t'.accessor = t.accessor ∧ t'.mode = t.mode ∧
      t'.prereqs = t.prereqs ∧
      (t'.status = t.status ∨
       (t.status = .pending ∧ t'.status = .running) ∨
       (t.status = .pending ∧
         ∃ q, q ∈ t.prereqs ∧ prereqFailed s q = true ∧ t'.status = .failed (.depFailure q)) ∨
       (t.status = .running ∧ terminalSt t'.status = true)) := by
  cases e with
  | startT id0 =>
    cases hfd : findTask s id0 with
    | none => simp [sstep, hfd] at h
    | some t0 =>
      simp only [sstep, hfd] at h
      split at h
      next hc =>
        cases h
        by_cases hid : id = id0
        · subst hid
          rw [ht] at hfd
          injection hfd with hfd
          subst hfd
          refine ⟨{ t with status := .running }, ?_, rfl, rfl, rfl, ?_⟩
          · show lookupT (updStatus s.tasks id .running) id = _
            rw [lookupT_updStatus_self, show lookupT s.tasks id = some t from ht]
            rfl
          · exact Or.inr (Or.inl ⟨hc.1, rfl⟩)
        · refine ⟨t, ?_, rfl, rfl, rfl, Or.inl rfl⟩
          show lookupT (updStatus s.tasks id0 .running) id = some t
          rw [lookupT_updStatus_ne _ _ _ _ hid]
          exact ht
      · cases h
  | finishT id0 =>
    cases hfd : findTask s id0 with
    | none => simp [sstep, hfd] at h
    | some t0 =>
      simp only [sstep, hfd] at h
      split at h
      next hrun =>
        have key : ∀ (stNew : TStatus), terminalSt stNew = true →
              s'.tasks = updStatus s.tasks id0 stNew →
              ∃ t', findTask s' id = some t' ∧ t'.accessor = t.accessor ∧ t'.mode = t.mode ∧
                t'.prereqs = t.prereqs ∧
                (t'.status = t.status ∨
                 (t.status = .pending ∧ t'.status = .running) ∨
                 (t.status = .pending ∧
                   ∃ q, q ∈ t.prereqs ∧ prereqFailed s q = true ∧
                     t'.status = .failed (.depFailure q)) ∨
                 (t.status = .running ∧ terminalSt t'.status = true)) := by
            intro stNew hterm htasks
            by_cases hid : id = id0
            · subst hid
              rw [ht] at hfd
              injection hfd with hfd
              subst hfd
              refine ⟨{ t with status := stNew }, ?_, rfl, rfl, rfl, ?_⟩
              · show lookupT s'.tasks id = _
                rw [htasks, lookupT_updStatus_self, show lookupT s.tasks id = some t from ht]
                rfl
              · exact Or.inr (Or.inr (Or.inr ⟨hrun, hterm⟩))
            · refine ⟨t, ?_, rfl, rfl, rfl, Or.inl rfl⟩
              show lookupT s'.tasks id = some t
              rw [htasks, lookupT_updStatus_ne _ _ _ _ hid]
              exact ht
        split at h
        next v r' hacc =>
          cases h
          exact key (.completed v) rfl rfl
        next msg r' hacc =>
          cases h
          exact key (.failed (.accessorFailure msg)) rfl rfl
      · cases h
  | failDep id0 pre =>
    cases hfd : findTask s id0 with
    | none => simp [sstep, hfd] at h
    | some t0 =>
      simp only [sstep, hfd] at h
      split at h
      next hc =>
        cases h
        by_cases hid : id = id0
        · subst hid
          rw [ht] at hfd
          injection hfd with hfd
          subst hfd
          refine ⟨{ t with status := .failed (.depFailure pre) }, ?_, rfl, rfl, rfl, ?_⟩
          · show lookupT (updStatus s.tasks id (.failed (.depFailure pre))) id = _
            rw [lookupT_updStatus_self, show lookupT s.tasks id = some t from ht]
            rfl
          · exact Or.inr (Or.inr (Or.inl ⟨hc.1, pre, hc.2.1, hc.2.2, rfl⟩))
        · refine ⟨t, ?_, rfl, rfl, rfl, Or.inl rfl⟩
          show lookupT (updStatus s.tasks id0 (.failed (.depFailure pre))) id = some t
          rw [lookupT_updStatus_ne _ _ _ _ hid]
          exact ht
      · cases h
  | submitT a ps =>
    simp only [sstep] at h
    cases hp : submit s a ps with
    | mk r s2 =>
      rw [hp] at h
      cases r with
      | error eSub => cases h
      | ok id2 =>
        cases h
        unfold submit at hp
        split at hp
        · simp at hp
        · simp only [Prod.mk.injEq] at hp
          obtain ⟨-, hp2⟩ := hp
          subst hp2
          refine ⟨t, ?_, rfl, rfl, rfl, Or.inl rfl⟩
          show lookupT (s.tasks ++ _) id = some t
          exact lookupT_append_left _ ht

/-! ## Scheduler invariant lemmas -/

theorem lookupT_mem {tasks : List (Nat × TaskRec)} {id : Nat} {t : TaskRec}
    (h : lookupT tasks id = some t) : (id, t) ∈ tasks := by
  unfold lookupT at h
  cases hf : tasks.find? (fun p => decide (p.1 = id)) with
  | none => rw [hf] at h; cases h
  | some p =>
    rw [hf] at h
    injection h with h2
    have hmem := List.mem_of_find?_eq_some hf
    have hpred := List.find?_some hf
    rw [decide_eq_true_eq] at hpred
    cases p with
    | mk k v =>
      simp only at hpred h2
      rw [← hpred, ← h2] at *
      exact hmem

theorem updStatus_mem_fst {tasks : List (Nat × TaskRec)} {id : Nat} {st : TStatus}
    {p' : Nat × TaskRec} (h : p' ∈ updStatus tasks id st) : ∃ p ∈ tasks, p'.1 = p.1 := by
  obtain ⟨p, hp, hg⟩ := List.mem_map.mp h
  refine ⟨p, hp, ?_⟩
  by_cases hc : p.1 = id <;> simp [← hg, hc]

theorem prereqsCompleted_spec {s : SchedState} {ps : List Nat}
    (h : prereqsCompleted s ps = true) :
    ∀ q ∈ ps, ∃ tq, findTask s q = some tq ∧ isCompleted tq.status = true := by
  intro q hq
  have hall := List.all_eq_true.mp h q hq
  cases hfq : findTask s q with
  | none =>
    rw [hfq] at hall
    exact Bool.noConfusion hall
  | some tq =>
    rw [hfq] at hall
    exact ⟨tq, rfl, hall⟩

theorem prereqFailed_spec {s : SchedState} {pre : Nat} (h : prereqFailed s pre = true) :
    ∃ tp, findTask s pre = some tp ∧ isFailed tp.status = true := by
  unfold prereqFailed at h
  cases hfq : findTask s pre with
  | none => rw [hfq] at h; cases h
  | some tp =>
    rw [hfq] at h
    exact ⟨tp, rfl, h⟩

theorem isFailed_iff {st : TStatus} : isFailed st = true ↔ ∃ e, st = .failed e := by
  cases st <;> simp [isFailed]

theorem isCompleted_iff {st : TStatus} : isCompleted st = true ↔ ∃ v, st = .completed v := by
  cases st <;> simp [isCompleted]

theorem terminal_of_isCompleted {st : TStatus} (h : isCompleted st = true) :
    terminalSt st = true := by
  simp [terminalSt, h]

theorem terminal_of_isFailed {st : TStatus} (h : isFailed st = true) :
    terminalSt st = true := by
  simp [terminalSt, h]

theorem getRes_of_some {s : SchedState} {id : Nat} {t : TaskRec}
    (hft : findTask s id = some t) :
    getRes s id = match t.status with
      | .completed v => some (.ok v)
      | .failed e => some (.error e)
      | _ => none := by
  unfold getRes
  rw [hft]

/-- A lookup whose record's status differs from the updated task's old status
is untouched by the update. -/
theorem prereq_lookup_transfer {tasks : List (Nat × TaskRec)} {id0 : Nat} {t0 : TaskRec}
    (hfd : lookupT tasks id0 = some t0) (stNew : TStatus)
    {q : Nat} {tq : TaskRec} (hq : lookupT tasks q = some tq)
    (hdiff : tq.status ≠ t0.status) :
    lookupT (updStatus tasks id0 stNew) q = some tq := by
  have hne : q ≠ id0 := by
    intro hEq
    subst hEq
    rw [hq] at hfd
    injection hfd with hfd
    exact hdiff (by rw [hfd])
  rw [lookupT_updStatus_ne _ _ _ _ hne]
  exact hq

theorem schedInv_init (res : Int) : SchedInv (schedInit res) := by
  refine ⟨?_, ?_, ?_⟩
  · intro p hp; cases hp
  · intro x hx; cases hx
  · intro id t hl; cases hl

theorem schedInv_step {s : SchedState} {e : SStep} {s' : SchedState}
    (hs : SchedInv s) (h : sstep s e = some s') : SchedInv s' := by
  obtain ⟨hkeys, hlog, htask⟩ := hs
  cases e with
  | startT id0 =>
    cases hfd : findTask s id0 with
    | none => simp [sstep, hfd] at h
    | some t0 =>
      simp only [sstep, hfd] at h
      split at h
      next hc =>
        cases h
        obtain ⟨hpend0, hcomp0, hadm0⟩ := hc
        have hfd' : lookupT s.tasks id0 = some t0 := hfd
        have hinv0 := htask id0 t0 hfd
        refine ⟨?_, ?_, ?_⟩
        · intro p hp
          obtain ⟨p0, hp0, hfst⟩ := updStatus_mem_fst hp
          rw [hfst]
          exact hkeys _ hp0
        · intro x hx
          rcases List.mem_append.mp hx with hx | hx
          · exact hlog x hx
          · rw [List.mem_singleton.mp hx]
            exact hkeys _ (lookupT_mem hfd')
        · intro id t' hft'
          have hft'' : lookupT (updStatus s.tasks id0 .running) id = some t' := hft'
          by_cases hid : id = id0
          · subst hid
            rw [lookupT_updStatus_self, hfd'] at hft''
            injection hft'' with hft''
            refine ⟨?_, ?_, ?_, ?_⟩
            · rw [← hft'']
              exact hinv0.1
            · rw [← hft'']
              intro hp
              exact TStatus.noConfusion hp
            · rw [← hft'']
              intro q hq
              exact TStatus.noConfusion hq
            · rw [← hft'']
              intro _ q hq
              obtain ⟨tq, hfq, hcq⟩ := prereqsCompleted_spec hcomp0 q hq
              refine ⟨tq, ?_, terminal_of_isCompleted hcq⟩
              show lookupT (updStatus s.tasks id .running) q = some tq
              apply prereq_lookup_transfer hfd' _ hfq
              intro hh
              rw [hh, hpend0] at hcq
              simp [isCompleted] at hcq
          · rw [lookupT_updStatus_ne _ _ _ _ hid] at hft''
            obtain ⟨hm, hpl, hdf, hrc⟩ := htask id t' hft''
            refine ⟨hm, ?_, ?_, ?_⟩
            · intro hp hmem
              rcases List.mem_append.mp hmem with hmem | hmem
              · exact hpl hp hmem
              · exact hid (List.mem_singleton.mp hmem)
            · intro q hq
              obtain ⟨hqmem, ⟨tq, e2, hfq, hfe⟩, hnl⟩ := hdf q hq
              refine ⟨hqmem, ⟨tq, e2, ?_, hfe⟩, ?_⟩
              · show lookupT (updStatus s.tasks id0 .running) q = some tq
                apply prereq_lookup_transfer hfd' _ hfq
                intro hh
                rw [hfe, hpend0] at hh
                exact TStatus.noConfusion hh
              · intro hmem
                rcases List.mem_append.mp hmem with hmem | hmem
                · exact hnl hmem
                · exact hid (List.mem_singleton.mp hmem)
            · intro hst q hq
              obtain ⟨tq, hfq, htq⟩ := hrc hst q hq
              refine ⟨tq, ?_, htq⟩
              show lookupT (updStatus s.tasks id0 .running) q = some tq
              apply prereq_lookup_transfer hfd' _ hfq
              intro hh
              rw [hh, hpend0] at htq
              simp [terminalSt, isCompleted, isFailed] at htq
      · cases h
  | finishT id0 =>
    cases hfd : findTask s id0 with
    | none => simp [sstep, hfd] at h
    | some t0 =>
      simp only [sstep, hfd] at h
      split at h
      next hrun =>
        have hfd' : lookupT s.tasks id0 = some t0 := hfd
        have hinv0 := htask id0 t0 hfd
        have key : ∀ (stNew : TStatus) (r2 : Int), terminalSt stNew = true →
            (∀ q, stNew ≠ TStatus.failed (TErr.depFailure q)) →
            SchedInv { tasks := updStatus s.tasks id0 stNew, resource := r2,
                       nextId := s.nextId, execLog := s.execLog } := by
          intro stNew r2 hterm hnodep
          refine ⟨?_, hlog, ?_⟩
          · intro p hp
            obtain ⟨p0, hp0, hfst⟩ := updStatus_mem_fst hp
            rw [hfst]
            exact hkeys _ hp0
          · intro id t' hft'
            have hft'' : lookupT (updStatus s.tasks id0 stNew) id = some t' := hft'
            by_cases hid : id = id0
            · subst hid
              rw [lookupT_updStatus_self, hfd'] at hft''
              injection hft'' with hft''
              refine ⟨?_, ?_, ?_, ?_⟩
              · rw [← hft'']
                exact hinv0.1
              · rw [← hft'']
                intro hp
                have hp' : stNew = TStatus.pending := hp
                rw [hp'] at hterm
                simp [terminalSt, isCompleted, isFailed] at hterm
              · rw [← hft'']
                intro q hq
                have hq' : stNew = TStatus.failed (TErr.depFailure q) := hq
                exact absurd hq' (hnodep q)
              · rw [← hft'']
                intro _ q hq
                obtain ⟨tq, hfq, htq⟩ := hinv0.2.2.2 (Or.inl hrun) q hq
                refine ⟨tq, ?_, htq⟩
                show lookupT (updStatus s.tasks id stNew) q = some tq
                apply prereq_lookup_transfer hfd' _ hfq
                intro hh
                rw [hh, hrun] at htq
                simp [terminalSt, isCompleted, isFailed] at htq
            · rw [lookupT_updStatus_ne _ _ _ _ hid] at hft''
              obtain ⟨hm, hpl, hdf, hrc⟩ := htask id t' hft''
              refine ⟨hm, hpl, ?_, ?_⟩
              · intro q hq
                obtain ⟨hqmem, ⟨tq, e2, hfq, hfe⟩, hnl⟩ := hdf q hq
                refine ⟨hqmem, ⟨tq, e2, ?_, hfe⟩, hnl⟩
                show lookupT (updStatus s.tasks id0 stNew) q = some tq
                apply prereq_lookup_transfer hfd' _ hfq
                intro hh
                rw [hfe, hrun] at hh
                exact TStatus.noConfusion hh
              · intro hst q hq
                obtain ⟨tq, hfq, htq⟩ := hrc hst q hq
                refine ⟨tq, ?_, htq⟩
                show lookupT (updStatus s.tasks id0 stNew) q = some tq
                apply prereq_lookup_transfer hfd' _ hfq
                intro hh
                rw [hh, hrun] at htq
                simp [terminalSt, isCompleted, isFailed] at htq
        split at h
        next v r' hacc =>
          cases h
          exact key (.completed v) r' (by simp [terminalSt, isCompleted]) (fun q => by simp)
        next msg r' hacc =>
          cases h
          exact key (.failed (.accessorFailure msg)) r' (by simp [terminalSt, isFailed])
            (fun q => by simp)
      · cases h
  | failDep id0 pre =>
    cases hfd : findTask s id0 with
    | none => simp [sstep, hfd] at h
    | some t0 =>
      simp only [sstep, hfd] at h
      split at h
      next hc =>
        cases h
        obtain ⟨hpend0, hpre, hpf⟩ := hc
        have hfd' : lookupT s.tasks id0 = some t0 := hfd
        have hinv0 := htask id0 t0 hfd
        refine ⟨?_, hlog, ?_⟩
        · intro p hp
          obtain ⟨p0, hp0, hfst⟩ := updStatus_mem_fst hp
          rw [hfst]
          exact hkeys _ hp0
        · intro id t' hft'
          have hft'' :
              lookupT (updStatus s.tasks id0 (.failed (.depFailure pre))) id = some t' := hft'
          by_cases hid : id = id0
          · subst hid
            rw [lookupT_updStatus_self, hfd'] at hft''
            injection hft'' with hft''
            refine ⟨?_, ?_, ?_, ?_⟩
            · rw [← hft'']
              exact hinv0.1
            · rw [← hft'']
              intro hp
              exact TStatus.noConfusion hp
            · rw [← hft'']
              intro q hq
              have hq' : TStatus.failed (TErr.depFailure pre) =
                  TStatus.failed (TErr.depFailure q) := hq
              injection hq' with hq2
              injection hq2 with hq3
              subst hq3
              refine ⟨hpre, ?_, hinv0.2.1 hpend0⟩
              obtain ⟨tp, hfp, hisf⟩ := prereqFailed_spec hpf
              obtain ⟨e2, he2⟩ := isFailed_iff.mp hisf
              refine ⟨tp, e2, ?_, he2⟩
              show lookupT (updStatus s.tasks id (.failed (.depFailure pre))) pre = some tp
              apply prereq_lookup_transfer hfd' _ hfp
              intro hh
              rw [he2, hpend0] at hh
              exact TStatus.noConfusion hh
            · rw [← hft'']
              intro hst q hq
              rcases hst with hst | ⟨v, hst⟩
              · exact absurd (show TStatus.failed (TErr.depFailure pre) = .running from hst)
                  (by simp)
              · exact absurd (show TStatus.failed (TErr.depFailure pre) = .completed v from hst)
                  (by simp)
          · rw [lookupT_updStatus_ne _ _ _ _ hid] at hft''
            obtain ⟨hm, hpl, hdf, hrc⟩ := htask id t' hft''
            refine ⟨hm, hpl, ?_, ?_⟩
            · intro q hq
              obtain ⟨hqmem, ⟨tq, e2, hfq, hfe⟩, hnl⟩ := hdf q hq
              refine ⟨hqmem, ⟨tq, e2, ?_, hfe⟩, hnl⟩
              show lookupT (updStatus s.tasks id0 (.failed (.depFailure pre))) q = some tq
              apply prereq_lookup_transfer hfd' _ hfq
              intro hh
              rw [hfe, hpend0] at hh
              exact TStatus.noConfusion hh
            · intro hst q hq
              obtain ⟨tq, hfq, htq⟩ := hrc hst q hq
              refine ⟨tq, ?_, htq⟩
              show lookupT (updStatus s.tasks id0 (.failed (.depFailure pre))) q = some tq
              apply prereq_lookup_transfer hfd' _ hfq
              intro hh
              rw [hh, hpend0] at htq
              simp [terminalSt, isCompleted, isFailed] at htq
      · cases h
  | submitT a ps =>
    simp only [sstep] at h
    cases hp : submit s a ps with
    | mk r s2 =>
      rw [hp] at h
      cases r with
      | error e2 => cases h
      | ok id2 =>
        cases h
        unfold submit at hp
        split at hp
        · simp at hp
        · simp only [Prod.mk.injEq] at hp
          obtain ⟨-, hp2⟩ := hp
          subst hp2
          refine ⟨?_, ?_, ?_⟩
          · intro p hmem
            rcases List.mem_append.mp hmem with hmem | hmem
            · exact Nat.lt_trans (hkeys _ hmem) (Nat.lt_succ_self _)
            · rw [List.mem_singleton.mp hmem]
              exact Nat.lt_succ_self _
          · intro x hx
            exact Nat.lt_trans (hlog x hx) (Nat.lt_succ_self _)
          · intro id t' hft'
            have hft'' :
                lookupT (s.tasks ++ [(s.nextId, ⟨a, classify a, ps, .pending⟩)]) id =
                  some t' := hft'
            cases hold : lookupT s.tasks id with
            | some t'' =>
              rw [lookupT_append_left _ hold] at hft''
              injection hft'' with hft''
              subst hft''
              obtain ⟨hm, hpl, hdf, hrc⟩ := htask id t'' hold
              refine ⟨hm, hpl, ?_, ?_⟩
              · intro q hq
                obtain ⟨hqmem, ⟨tq, e2, hfq, hfe⟩, hnl⟩ := hdf q hq
                exact ⟨hqmem, ⟨tq, e2, lookupT_append_left _ hfq, hfe⟩, hnl⟩
              · intro hst q hq
                obtain ⟨tq, hfq, htq⟩ := hrc hst q hq
                exact ⟨tq, lookupT_append_left _ hfq, htq⟩
            | none =>
              rw [lookupT_append_right _ hold, lookupT_cons] at hft''
              by_cases hidn : s.nextId = id
              · rw [if_pos (show ((s.nextId,
                    (⟨a, classify a, ps, .pending⟩ : TaskRec)) : Nat × TaskRec).1 = id
                    from hidn)] at hft''
                injection hft'' with hft''
                subst hidn
                refine ⟨?_, ?_, ?_, ?_⟩
                · rw [← hft'']
                · rw [← hft'']
                  intro _ hmem
                  exact Nat.lt_irrefl _ (hlog _ hmem)
                · rw [← hft'']
                  intro q hq
                  exact TStatus.noConfusion hq
                · rw [← hft'']
                  intro hst q hq
                  rcases hst with hst | ⟨v, hst⟩
                  · exact TStatus.noConfusion hst
                  · exact TStatus.noConfusion hst
              · rw [if_neg (show ¬((s.nextId,
                    (⟨a, classify a, ps, .pending⟩ : TaskRec)) : Nat × TaskRec).1 = id
                    from hidn)] at hft''
                cases hft''

/-- C2: Round-trip equivalence of the two access paths.  For every accessor
and every resource state, the blocking path `Sync(fn)` and the scheduled path
`Async(fn).GetResult()` (no prerequisites) yield identical results — the same
stored value or the same propagated failure — and leave the resource in the
same state. -/
theorem sync_async_roundtrip (res : Int) (a : Accessor) :
    asyncGetResult res a = (some (embedErr (Sync res a).1), (Sync res a).2) := by
  cases a with
  | ro f =>
    cases hf : f res with
    | ok v =>
      simp [asyncGetResult, Sync, runAccessor, submit, schedInit, reach, sstep, findTask,
        lookupT, updStatus, prereqsCompleted, admissionOk, classify, getRes, embedErr,
        isRunning, hf, List.find?]
    | error e =>
      simp [asyncGetResult, Sync, runAccessor, submit, schedInit, reach, sstep, findTask,
        lookupT, updStatus, prereqsCompleted, admissionOk, classify, getRes, embedErr,
        isRunning, hf, List.find?]
  | rw f =>
    cases hf : f res with
    | ok p =>
      cases p with
      | mk r' v =>
        simp [asyncGetResult, Sync, runAccessor, submit, schedInit, reach, sstep, findTask,
          lookupT, updStatus, prereqsCompleted, admissionOk, classify, getRes, embedErr,
          isRunning, hf, List.find?]
    | error e =>
      simp [asyncGetResult, Sync, runAccessor, submit, schedInit, reach, sstep, findTask,
        lookupT, updStatus, prereqsCompleted, admissionOk, classify, getRes, embedErr,
        isRunning, hf, List.find?]

/-! ## Claim theorems for the coordinator and execution traces -/

/-- C1: Mutual exclusion of the reader/writer policy.  In every valid
execution trace, for any read-write task, no other task's execution window
overlaps its window: whichever of the two tasks starts first must finish
strictly before the other one starts.  Read-only tasks, by contrast, may
execute concurrently with each other, as the valid trace `roDemo` shows
(task 2 starts inside task 1's window). -/
theorem rw_exclusive_ro_concurrent :
    (∀ (tr : List Ev) (i j idW idO : Nat) (mO : Mode),
        ValidTrace tr →
        tr[i]? = some (.start idW .rw) →
        tr[j]? = some (.start idO mO) →
        ((i < j → ∃ f, i < f ∧ f < j ∧ tr[f]? = some (.finish idW)) ∧
         (j < i → ∃ f, j < f ∧ f < i ∧ tr[f]? = some (.finish idO))))
    ∧ (ValidTrace roDemo ∧ roDemo[0]? = some (.start 1 .ro) ∧
       roDemo[1]? = some (.start 2 .ro) ∧ roDemo[2]? = some (.finish 1) ∧
       roDemo[3]? = some (.finish 2)) := by
  constructor
  · intro tr i j idW idO mO hv hW hO
    constructor
    · intro hij
      exact start_separated tr hv i j idW idO .rw mO hW hO hij (Or.inl rfl)
    · intro hji
      exact start_separated tr hv j i idO idW mO .rw hO hW hji (Or.inr rfl)
  · exact ⟨by unfold ValidTrace; decide, by decide, by decide, by decide, by decide⟩

theorem rw_exclusive_ro_concurrent_witness :
    ValidTrace exclDemo
    ∧ exclDemo[2]? = some (.start 7 .rw)
    ∧ exclDemo[0]? = some (.start 5 .ro)
    ∧ ((2 < 0 → ∃ f, 2 < f ∧ f < 0 ∧ exclDemo[f]? = some (.finish 7)) ∧
       (0 < 2 → ∃ f, 0 < f ∧ f < 2 ∧ exclDemo[f]? = some (.finish 5))) :=
  ⟨by unfold ValidTrace; decide, by decide, by decide,
    rw_exclusive_ro_concurrent.1 exclDemo 2 0 7 5 .ro
      (by unfold ValidTrace; decide) (by decide) (by decide)⟩

/-- C8: Access Coordinator state invariant.  In every state reachable from the
initial coordinator state by the four admission operations, an admitted reader
and an admitted writer never coexist and at most one writer is admitted; and
each of `admitReadOnly`, `releaseReadOnly`, `admitReadWrite`,
`releaseReadWrite` preserves the invariant. -/
theorem coordinator_invariant :
    (∀ (ops : List CoordOp) (s : CoordState),
        runM applyOp coordInit ops = some s → CoordInv s)
    ∧ (∀ (s : CoordState) (op : CoordOp) (s' : CoordState),
        CoordInv s → applyOp s op = some s' → CoordInv s') := by
  constructor
  · intro ops s h
    exact runM_invariant applyOp CoordInv coordInv_step ops coordInit s coordInv_init h
  · exact coordInv_step

theorem coordinator_invariant_witness :
    runM applyOp coordInit
        [CoordOp.admitRO, CoordOp.admitRO, CoordOp.releaseRO,
         CoordOp.releaseRO, CoordOp.admitRW] = some ⟨0, true⟩
    ∧ CoordInv ⟨0, true⟩ :=
  ⟨by decide,
    coordinator_invariant.1
      [CoordOp.admitRO, CoordOp.admitRO, CoordOp.releaseRO,
       CoordOp.releaseRO, CoordOp.admitRW] ⟨0, true⟩ (by decide)⟩

/-! ## Claim theorems for the task scheduler -/

/-- C3: Fail-fast dependency-failure propagation.  In every reachable
scheduler state, a task whose stored error is `depFailure q` has `q` among its
own prerequisites, `q` is a task that reached the Failed state, and the task's
accessor never executed (it is not in the execution log); moreover, whenever a
pending task has a failed prerequisite, the propagation step that marks it
Failed is enabled. -/
theorem fail_fast_propagation :
    (∀ (res : Int) (steps : List SStep) (s : SchedState),
        runM sstep (schedInit res) steps = some s →
        ∀ id t q, findTask s id = some t → t.status = .failed (.depFailure q) →
          q ∈ t.prereqs ∧ (∃ tq e, findTask s q = some tq ∧ tq.status = .failed e) ∧
          id ∉ s.execLog)
    ∧ (∀ (s : SchedState) (id pre : Nat) (t : TaskRec),
        findTask s id = some t → t.status = .pending → pre ∈ t.prereqs →
        prereqFailed s pre = true → (sstep s (.failDep id pre)).isSome = true) := by
  constructor
  · intro res steps s hrun id t q hft hst
    have hinv := runM_invariant sstep SchedInv (fun s1 e s2 h1 h2 => schedInv_step h1 h2)
      steps (schedInit res) s (schedInv_init res) hrun
    exact (hinv.2.2 id t hft).2.2.1 q hst
  · intro s id pre t hft hp hmem hpf
    simp only [sstep, hft]
    rw [if_pos ⟨hp, hmem, hpf⟩]
    rfl

theorem fail_fast_propagation_witness :
    runM sstep (schedInit 0) c3Steps = some c3State
    ∧ findTask c3State 1 = some ⟨demoAcc, Mode.ro, [0], .failed (.depFailure 0)⟩
    ∧ ((0 : Nat) ∈ [0] ∧ (∃ tq e, findTask c3State 0 = some tq ∧ tq.status = .failed e) ∧
        (1 : Nat) ∉ c3State.execLog)
    ∧ findTask c3Pre 1 = some ⟨demoAcc, Mode.ro, [0], .pending⟩
    ∧ prereqFailed c3Pre 0 = true
    ∧ (sstep c3Pre (.failDep 1 0)).isSome = true := by
  refine ⟨rfl, rfl, ?_, rfl, rfl, ?_⟩
  · exact fail_fast_propagation.1 0 c3Steps c3State rfl 1
      ⟨demoAcc, Mode.ro, [0], .failed (.depFailure 0)⟩ 0 rfl rfl
  · exact fail_fast_propagation.2 c3Pre 1 0 ⟨demoAcc, Mode.ro, [0], .pending⟩ rfl rfl
      (by decide) rfl

/-- C4: Cycle rejection with atomicity.  Whenever the transitive closure of
the submitted prerequisite set contains the id the new task would get, the
submission returns `cycleError` and the scheduler state is returned unchanged
(no task is created); in particular this holds when the prerequisite set
contains that id directly. -/
theorem cycle_rejection :
    (∀ (s : SchedState) (a : Accessor) (ps : List Nat),
        s.nextId ∈ reach s.tasks (s.tasks.length + 1) ps →
        submit s a ps = (.error .cycleError, s))
    ∧ (∀ (s : SchedState) (a : Accessor) (ps : List Nat),
        s.nextId ∈ ps → submit s a ps = (.error .cycleError, s)) := by
  have base : ∀ (s : SchedState) (a : Accessor) (ps : List Nat),
      s.nextId ∈ reach s.tasks (s.tasks.length + 1) ps →
      submit s a ps = (.error .cycleError, s) := by
    intro s a ps h
    unfold submit
    rw [if_pos h]
  exact ⟨base, fun s a ps h => base s a ps (reach_superset _ _ _ _ h)⟩

theorem cycle_rejection_witness :
    (9 : Nat) ∈ reach c4State.tasks (c4State.tasks.length + 1) [3]
    ∧ submit c4State demoAcc [3] = (.error .cycleError, c4State) :=
  ⟨by decide, cycle_rejection.1 c4State demoAcc [3] (by decide)⟩

/-- C5: Dependency ordering.  In every reachable scheduler state, a task that
is Running or Completed has every one of its prerequisites in a terminal state
(Completed or Failed) — so a task never enters Running before its
prerequisites are terminal; and the admission step for a task is enabled only
when all its prerequisites are terminal. -/
theorem dependency_ordering :
    (∀ (res : Int) (steps : List SStep) (s : SchedState),
        runM sstep (schedInit res) steps = some s →
        ∀ id t, findTask s id = some t →
        (t.status = .running ∨ ∃ v, t.status = .completed v) →
        ∀ q ∈ t.prereqs, ∃ tq, findTask s q = some tq ∧ terminalSt tq.status = true)
    ∧ (∀ (s s' : SchedState) (id : Nat) (t : TaskRec),
        findTask s id = some t → sstep s (.startT id) = some s' →
        ∀ q ∈ t.prereqs, ∃ tq, findTask s q = some tq ∧ terminalSt tq.status = true) := by
  constructor
  · intro res steps s hrun id t hft hst
    have hinv := runM_invariant sstep SchedInv (fun s1 e s2 h1 h2 => schedInv_step h1 h2)
      steps (schedInit res) s (schedInv_init res) hrun
    exact (hinv.2.2 id t hft).2.2.2 hst
  · intro s s' id t hft hstep q hq
    simp only [sstep, hft] at hstep
    split at hstep
    next hc =>
      obtain ⟨tq, hfq, hcq⟩ := prereqsCompleted_spec hc.2.1 q hq
      exact ⟨tq, hfq, terminal_of_isCompleted hcq⟩
    · cases hstep

theorem dependency_ordering_witness :
    runM sstep (schedInit 0) c5Steps = some c5State
    ∧ findTask c5State 1 = some ⟨demoAcc, Mode.ro, [0], .running⟩
    ∧ (∀ q ∈ [0], ∃ tq, findTask c5State q = some tq ∧ terminalSt tq.status = true)
    ∧ findTask c5Pre 1 = some ⟨demoAcc, Mode.ro, [0], .pending⟩
    ∧ sstep c5Pre (.startT 1) = some c5State
    ∧ (∀ q ∈ [0], ∃ tq, findTask c5Pre q = some tq ∧ terminalSt tq.status = true) := by
  refine ⟨rfl, rfl, ?_, rfl, rfl, ?_⟩
  · exact dependency_ordering.1 0 c5Steps c5State rfl 1
      ⟨demoAcc, Mode.ro, [0], .running⟩ rfl (Or.inl rfl)
  · exact dependency_ordering.2 c5Pre c5State 1 ⟨demoAcc, Mode.ro, [0], .pending⟩ rfl rfl

/-- C6: Access-mode classification.  An accessor is classified read-only
exactly when it takes the resource by immutable (`const&`) view and read-write
exactly when it takes it mutably; the classification is fixed at bind time
(the created task stores `classify a` as its mode, together with the accessor
itself), and no scheduler step ever changes a task's mode or accessor. -/
theorem mode_classification :
    (∀ a : Accessor, (classify a = Mode.ro ↔ ∃ f, a = Accessor.ro f) ∧
        (classify a = Mode.rw ↔ ∃ f, a = Accessor.rw f))
    ∧ (∀ (s : SchedState) (a : Accessor) (ps : List Nat) (id : Nat) (s2 : SchedState),
        (∀ p ∈ s.tasks, p.1 < s.nextId) →
        submit s a ps = (Except.ok id, s2) →
        ∃ t, findTask s2 id = some t ∧ t.mode = classify a ∧ t.accessor = a ∧
          t.status = .pending ∧ t.prereqs = ps)
    ∧ (∀ (s s' : SchedState) (e : SStep) (id : Nat) (t : TaskRec),
        sstep s e = some s' → findTask s id = some t →
        ∃ t', findTask s' id = some t' ∧ t'.mode = t.mode ∧ t'.accessor = t.accessor) := by
  refine ⟨?_, ?_, ?_⟩
  · intro a
    cases a with
    | ro f =>
      refine ⟨⟨fun _ => ⟨f, rfl⟩, fun _ => rfl⟩, ⟨fun h => ?_, fun hg => ?_⟩⟩
      · exact Mode.noConfusion h
      · obtain ⟨g, hg⟩ := hg
        exact Accessor.noConfusion hg
    | rw f =>
      refine ⟨⟨fun h => ?_, fun hg => ?_⟩, ⟨fun _ => ⟨f, rfl⟩, fun _ => rfl⟩⟩
      · exact Mode.noConfusion h
      · obtain ⟨g, hg⟩ := hg
        exact Accessor.noConfusion hg
  · intro s a ps id s2 hkeys hsub
    unfold submit at hsub
    split at hsub
    · simp at hsub
    · simp only [Prod.mk.injEq] at hsub
      obtain ⟨hid, hs2⟩ := hsub
      injection hid with hid
      subst hid
      subst hs2
      refine ⟨⟨a, classify a, ps, .pending⟩, ?_, rfl, rfl, rfl, rfl⟩
      show lookupT (s.tasks ++ [(s.nextId, ⟨a, classify a, ps, .pending⟩)]) s.nextId = _
      rw [lookupT_append_right _ (lookupT_eq_none_of_lt _ _ hkeys), lookupT_cons, if_pos rfl]
  · intro s s' e id t hstep hft
    obtain ⟨t', h1, h2, h3, _, _⟩ := sstep_evolution hstep hft
    exact ⟨t', h1, h3, h2⟩

theorem mode_classification_witness :
    (∀ p ∈ (schedInit 0).tasks, p.1 < (schedInit 0).nextId)
    ∧ submit (schedInit 0) demoAcc [] = (Except.ok 0, c6State)
    ∧ (∃ t, findTask c6State 0 = some t ∧ t.mode = classify demoAcc ∧
        t.accessor = demoAcc ∧ t.status = .pending ∧ t.prereqs = [])
    ∧ sstep c6State (.startT 0) = some c6StateB
    ∧ findTask c6State 0 = some ⟨demoAcc, Mode.ro, [], .pending⟩
    ∧ (∃ t', findTask c6StateB 0 = some t' ∧
        t'.mode = (⟨demoAcc, Mode.ro, [], TStatus.pending⟩ : TaskRec).mode ∧
        t'.accessor = (⟨demoAcc, Mode.ro, [], TStatus.pending⟩ : TaskRec).accessor) := by
  refine ⟨?_, rfl, ?_, rfl, rfl, ?_⟩
  · intro p hp
    cases hp
  · exact mode_classification.2.1 (schedInit 0) demoAcc [] 0 c6State
      (fun p hp => absurd hp (by simp [schedInit])) rfl
  · exact mode_classification.2.2 c6State c6StateB (.startT 0) 0
      ⟨demoAcc, Mode.ro, [], .pending⟩ rfl rfl

/-- C7: `getResult` semantics.  The result of a completion handle is available
exactly when its own task is terminal (so a blocked caller wakes at that
task's completion, independent of unrelated tasks — the result depends only on
that task's record); it returns the stored value of a Completed task and
propagates the stored failure of a Failed task; and once available it is never
changed by later scheduler activity, so every holder of a handle for the task
observes the same stored result or failure. -/
theorem getresult_semantics :
    (∀ (s : SchedState) (id : Nat),
        (getRes s id).isSome = true ↔
          ∃ t, findTask s id = some t ∧ terminalSt t.status = true)
    ∧ (∀ (s : SchedState) (id : Nat) (t : TaskRec), findTask s id = some t →
        (∀ v, t.status = .completed v → getRes s id = some (.ok v)) ∧
        (∀ e, t.status = .failed e → getRes s id = some (.error e)))
    ∧ (∀ (s : SchedState) (steps : List SStep) (s' : SchedState) (id : Nat)
        (r : Except TErr Int),
        getRes s id = some r → runM sstep s steps = some s' → getRes s' id = some r)
    ∧ (∀ (s s2 : SchedState) (id : Nat),
        findTask s id = findTask s2 id → getRes s id = getRes s2 id) := by
  refine ⟨?_, ?_, ?_, ?_⟩
  · intro s id
    unfold getRes
    cases hft : findTask s id with
    | none => simp
    | some t =>
      cases ht : t.status <;> simp [terminalSt, isCompleted, isFailed, ht]
  · intro s id t hft
    constructor
    · intro v hv
      rw [getRes_of_some hft, hv]
    · intro e he
      rw [getRes_of_some hft, he]
  · intro s steps s' id r hg hrun
    refine runM_invariant sstep (fun st => getRes st id = some r) ?_ steps s s' hg hrun
    intro s1 e s2 h1 hstep
    cases hft : findTask s1 id with
    | none =>
      unfold getRes at h1
      rw [hft] at h1
      exact Option.noConfusion h1
    | some t =>
      rw [getRes_of_some hft] at h1
      obtain ⟨t', hft', hacc, hmode, hpre, hdisj⟩ := sstep_evolution hstep hft
      rw [getRes_of_some hft']
      cases hts : t.status with
      | pending => rw [hts] at h1; cases h1
      | running => rw [hts] at h1; cases h1
      | completed v =>
        have hstEq : t'.status = t.status := by
          rcases hdisj with hsame | ⟨hp, _⟩ | ⟨hp, _⟩ | ⟨hp, _⟩
          · exact hsame
          · rw [hts] at hp; cases hp
          · rw [hts] at hp; cases hp
          · rw [hts] at hp; cases hp
        rw [hstEq, hts]
        rw [hts] at h1
        exact h1
      | failed e2 =>
        have hstEq : t'.status = t.status := by
          rcases hdisj with hsame | ⟨hp, _⟩ | ⟨hp, _⟩ | ⟨hp, _⟩
          · exact hsame
          · rw [hts] at hp; cases hp
          · rw [hts] at hp; cases hp
          · rw [hts] at hp; cases hp
        rw [hstEq, hts]
        rw [hts] at h1
        exact h1
  · intro s s2 id h
    unfold getRes
    rw [h]

/-! ## Admission-queue lemmas -/

theorem arrivedIn_append (l1 l2 : List QEv) :
    arrivedIn (l1 ++ l2) = arrivedIn l1 ++ arrivedIn l2 := by
  induction l1 with
  | nil => rfl
  | cons e rest ih => cases e <;> simp [arrivedIn, ih]

theorem grantedIn_append (l1 l2 : List QEv) :
    grantedIn (l1 ++ l2) = grantedIn l1 ++ grantedIn l2 := by
  induction l1 with
  | nil => rfl
  | cons e rest ih => cases e <;> simp [grantedIn, ih]

theorem qlookup_mem {l : List (Nat × Mode)} {id : Nat} {m : Mode}
    (h : qlookup l id = some m) : (id, m) ∈ l := by
  unfold qlookup at h
  cases hf : l.find? (fun p => decide (p.1 = id)) with
  | none => rw [hf] at h; cases h
  | some p =>
    rw [hf] at h
    injection h with h2
    have hmem := List.mem_of_find?_eq_some hf
    have hpred := List.find?_some hf
    rw [decide_eq_true_eq] at hpred
    cases p with
    | mk k v =>
      simp only at hpred h2
      rw [← hpred, ← h2] at *
      exact hmem

theorem qlookup_isSome_of_mem {l : List (Nat × Mode)} {id : Nat} {m : Mode}
    (h : (id, m) ∈ l) : (qlookup l id).isSome = true := by
  induction l with
  | nil => cases h
  | cons p rest ih =>
    rcases List.mem_cons.mp h with h | h
    · rw [← h]
      simp [qlookup, List.find?_cons]
    · by_cases hp : p.1 = id
      · simp [qlookup, List.find?_cons, hp]
      · simpa [qlookup, List.find?_cons, hp] using ih h

theorem qstep_arrive_guard {s s' : QState} {id : Nat} {m : Mode}
    (h : qstep s (.arrive id m) = some s') :
    id ∉ s.seen ∧ s'.queue = s.queue ++ [(id, m)] ∧ s'.active = s.active ∧
    s'.seen = id :: s.seen := by
  simp only [qstep] at h
  split at h
  · cases h
  next hid =>
    cases h
    exact ⟨hid, rfl, rfl, rfl⟩

theorem qstep_grant_guard {s s' : QState} {id : Nat}
    (h : qstep s (.grant id) = some s') :
    ∃ m, qlookup s.queue id = some m ∧ noRwAhead s.queue id = true ∧
      grantOk s.active m = true ∧
      s'.queue = s.queue.filter (fun p => decide (p.1 ≠ id)) ∧
      s'.active = (id, m) :: s.active ∧ s'.seen = s.seen := by
  cases hql : qlookup s.queue id with
  | none => simp [qstep, hql] at h
  | some m =>
    simp only [qstep, hql] at h
    split at h
    next hc =>
      cases h
      exact ⟨m, rfl, hc.1, hc.2, rfl, rfl, rfl⟩
    · cases h

theorem qstep_seen_mono {s s' : QState} {e : QEv} (h : qstep s e = some s') :
    ∀ x ∈ s.seen, x ∈ s'.seen := by
  cases e with
  | arrive id m =>
    rw [(qstep_arrive_guard h).2.2.2]
    intro x hx
    exact List.mem_cons_of_mem _ hx
  | grant id =>
    rw [(qstep_grant_guard h).choose_spec.2.2.2.2.2]
    intro x hx
    exact hx
  | depart id =>
    cases hql : qlookup s.active id with
    | none => simp [qstep, hql] at h
    | some m =>
      simp only [qstep, hql] at h
      cases h
      intro x hx
      exact hx

theorem seen_mono_run :
    ∀ (l : List QEv) (s s' : QState), runM qstep s l = some s' →
      ∀ x ∈ s.seen, x ∈ s'.seen := by
  intro l
  induction l with
  | nil =>
    intro s s' h x hx
    cases h
    exact hx
  | cons e rest ih =>
    intro s s' h x hx
    unfold runM at h
    cases hf : qstep s e with
    | none => rw [hf] at h; cases h
    | some s1 =>
      rw [hf] at h
      exact ih s1 s' h x (qstep_seen_mono hf x hx)

/-- A request id arrives at most once in a valid queue trace. -/
theorem arrive_unique {tr : List QEv} (hv : ValidQTrace tr) {i j : Nat} {id : Nat}
    {m m' : Mode} (hi : tr[i]? = some (.arrive id m)) (hj : tr[j]? = some (.arrive id m'))
    (hij : i < j) : False := by
  have hval : (runM qstep qInit tr).isSome := hv
  obtain ⟨si1, hsi1⟩ := Option.isSome_iff_exists.mp (stA_isSome_of_run _ _ _ hval (i + 1))
  obtain ⟨si, hsi, hstepi⟩ := stA_step_at qstep qInit tr hi hsi1
  obtain ⟨sj1, hsj1⟩ := Option.isSome_iff_exists.mp (stA_isSome_of_run _ _ _ hval (j + 1))
  obtain ⟨sj, hsj, hstepj⟩ := stA_step_at qstep qInit tr hj hsj1
  have hin : id ∈ si1.seen := by
    rw [(qstep_arrive_guard hstepi).2.2.2]
    exact List.mem_cons_self _ _
  have hinj : id ∈ sj.seen :=
    seen_mono_run _ si1 sj (stA_run_between qstep qInit tr (by omega) hsi1 hsj) id hin
  exact (qstep_arrive_guard hstepj).1 hinj

theorem getresult_semantics_witness :
    findTask c7a 0 = some ⟨failAcc, Mode.ro, [], .failed (.accessorFailure "boom")⟩
    ∧ ((∀ v, (⟨failAcc, Mode.ro, [], .failed (.accessorFailure "boom")⟩ : TaskRec).status =
          .completed v → getRes c7a 0 = some (.ok v)) ∧
       (∀ e, (⟨failAcc, Mode.ro, [], .failed (.accessorFailure "boom")⟩ : TaskRec).status =
          .failed e → getRes c7a 0 = some (.error e)))
    ∧ getRes c7a 0 = some (.error (.accessorFailure "boom"))
    ∧ runM sstep c7a [SStep.submitT demoAcc []] = some c7b
    ∧ getRes c7b 0 = some (.error (.accessorFailure "boom"))
    ∧ (findTask c7a 0 = findTask c7a 0 → getRes c7a 0 = getRes c7a 0) := by
  refine ⟨rfl, ?_, rfl, rfl, ?_, ?_⟩
  · exact getresult_semantics.2.1 c7a 0
      ⟨failAcc, Mode.ro, [], .failed (.accessorFailure "boom")⟩ rfl
  · exact getresult_semantics.2.2.1 c7a [SStep.submitT demoAcc []] c7b 0
      (.error (.accessorFailure "boom")) rfl rfl
  · exact getresult_semantics.2.2.2 c7a c7a 0

/-- Characterization of reachable queue states: the queue is exactly the list
of arrivals not yet granted, in arrival order; granted ids come from arrivals;
the seen set is the set of arrived ids; and arrived ids are pairwise
distinct. -/
theorem queue_char (tr : List QEv) :
    ∀ s : QState, runM qstep qInit tr = some s →
      s.queue = (arrivedIn tr).filter (fun q => decide (q.1 ∉ grantedIn tr)) ∧
      (∀ x ∈ grantedIn tr, x ∈ (arrivedIn tr).map Prod.fst) ∧
      (∀ x ∈ s.seen, x ∈ (arrivedIn tr).map Prod.fst) ∧
      (∀ x ∈ (arrivedIn tr).map Prod.fst, x ∈ s.seen) ∧
      ((arrivedIn tr).map Prod.fst).Nodup := by
  induction tr using List.reverseRecOn with
  | nil =>
    intro s h
    injection h with h
    subst h
    refine ⟨rfl, ?_, ?_, ?_, ?_⟩ <;> simp [arrivedIn, grantedIn, qInit]
  | append_singleton tr' e ih =>
    intro s h
    rw [runM_append] at h
    cases hr : runM qstep qInit tr' with
    | none => rw [hr] at h; cases h
    | some s1 =>
      rw [hr] at h
      simp only [Option.some_bind] at h
      rw [runM_singleton] at h
      obtain ⟨ihq, ihg, ihseen1, ihseen2, ihnd⟩ := ih s1 hr
      cases e with
      | arrive id m =>
        obtain ⟨hnotseen, hqueue, hactive, hseen⟩ := qstep_arrive_guard h
        have hidfresh : id ∉ (arrivedIn tr').map Prod.fst := fun hmem =>
          hnotseen (ihseen2 id hmem)
        have hidgr : id ∉ grantedIn tr' := fun hg => hidfresh (ihg id hg)
        rw [arrivedIn_append, grantedIn_append]
        simp only [arrivedIn, grantedIn, List.append_nil]
        refine ⟨?_, ?_, ?_, ?_, ?_⟩
        · rw [hqueue, ihq, List.filter_append]
          congr 1
          simp [hidgr]
        · intro x hx
          rw [List.map_append]
          exact List.mem_append_left _ (ihg x hx)
        · intro x hx
          rw [hseen] at hx
          rw [List.map_append]
          rcases List.mem_cons.mp hx with hx | hx
          · subst hx
            exact List.mem_append_right _ (by simp)
          · exact List.mem_append_left _ (ihseen1 x hx)
        · intro x hx
          rw [List.map_append] at hx
          rw [hseen]
          rcases List.mem_append.mp hx with hx | hx
          · exact List.mem_cons_of_mem _ (ihseen2 x hx)
          · simp at hx
            subst hx
            exact List.mem_cons_self _ _
        · rw [List.map_append]
          rw [List.nodup_append]
          refine ⟨ihnd, by simp, ?_⟩
          intro a ha hb
          simp at hb
          subst hb
          exact hidfresh ha
      | grant id =>
        obtain ⟨m, hql, hnoRw, hgOk, hqueue, hactive, hseen⟩ := qstep_grant_guard h
        have hidq : (id, m) ∈ s1.queue := qlookup_mem hql
        have hidarr : id ∈ (arrivedIn tr').map Prod.fst := by
          rw [ihq] at hidq
          exact List.mem_map_of_mem _ (List.mem_of_mem_filter hidq)
        rw [arrivedIn_append, grantedIn_append]
        simp only [arrivedIn, grantedIn, List.append_nil]
        refine ⟨?_, ?_, ?_, ?_, ?_⟩
        · rw [hqueue, ihq, List.filter_filter]
          apply List.filter_congr
          intro x hx
          rw [Bool.and_comm]
          rw [show (decide (x.1 ∉ grantedIn tr' ++ [id])) =
              decide (x.1 ∉ grantedIn tr' ∧ x.1 ≠ id) from by
            congr 1
            simp [List.mem_append, not_or]]
          rw [Bool.decide_and]
        · intro x hx
          rcases List.mem_append.mp hx with hx | hx
          · exact ihg x hx
          · simp at hx
            subst hx
            exact hidarr
        · intro x hx
          rw [hseen] at hx
          exact ihseen1 x hx
        · intro x hx
          rw [hseen]
          exact ihseen2 x hx
        · exact ihnd
      | depart id =>
        cases hql : qlookup s1.active id with
        | none => simp [qstep, hql] at h
        | some m =>
          simp only [qstep, hql] at h
          cases h
          rw [arrivedIn_append, grantedIn_append]
          simp only [arrivedIn, grantedIn, List.append_nil]
          exact ⟨ihq, ihg, ihseen1, ihseen2, ihnd⟩

/-- If `id` can be granted past the queue (no read-write request ahead of
it), then `id` is queued strictly before every read-write entry. -/
theorem noRwAhead_before :
    ∀ (l : List (Nat × Mode)) (r : Nat), noRwAhead l r = true →
    ∀ (l1 : List (Nat × Mode)) (w : Nat) (l2 : List (Nat × Mode)),
      l = l1 ++ (w, Mode.rw) :: l2 → w ≠ r → r ∈ l1.map Prod.fst := by
  intro l
  induction l with
  | nil =>
    intro r h l1 w l2 heq hwr
    cases l1 <;> cases heq
  | cons p rest ih =>
    intro r h l1 w l2 heq hwr
    cases l1 with
    | nil =>
      rw [List.nil_append] at heq
      injection heq with h1 h2
      subst h1
      unfold noRwAhead at h
      rw [if_neg hwr] at h
      simp at h
    | cons p1 l1' =>
      rw [List.cons_append] at heq
      injection heq with h1 h2
      subst h1
      obtain ⟨j, mm⟩ := p
      unfold noRwAhead at h
      by_cases hjr : j = r
      · subst hjr
        simp
      · rw [if_neg hjr] at h
        rw [Bool.and_eq_true] at h
        have hres := ih r h.2 l1' w l2 h2 hwr
        rw [List.map_cons]
        exact List.mem_cons_of_mem _ hres

theorem arrivedIn_mem : ∀ {l : List QEv} {a : Nat} {m : Mode},
    QEv.arrive a m ∈ l → (a, m) ∈ arrivedIn l := by
  intro l
  induction l with
  | nil => intro a m h; cases h
  | cons e rest ih =>
    intro a m h
    rcases List.mem_cons.mp h with heq | hmem
    · rw [← heq]
      simp [arrivedIn]
    · clear h
      cases e with
      | arrive b mb =>
        show (a, m) ∈ (b, mb) :: arrivedIn rest
        exact List.mem_cons_of_mem _ (ih hmem)
      | grant b =>
        show (a, m) ∈ arrivedIn rest
        exact ih hmem
      | depart b =>
        show (a, m) ∈ arrivedIn rest
        exact ih hmem

theorem arrivedIn_getElem : ∀ {l : List QEv} {a : Nat} {m : Mode},
    (a, m) ∈ arrivedIn l → ∃ idx : Nat, l[idx]? = some (QEv.arrive a m) := by
  intro l
  induction l with
  | nil => intro a m h; cases h
  | cons e rest ih =>
    intro a m h
    cases e with
    | arrive b mb =>
      rcases List.mem_cons.mp (show (a, m) ∈ (b, mb) :: arrivedIn rest from h) with h | h
      · injection h with h1 h2
        subst h1
        subst h2
        exact ⟨0, by simp⟩
      · obtain ⟨idx, hidx⟩ := ih h
        exact ⟨idx + 1, by simpa using hidx⟩
    | grant b =>
      obtain ⟨idx, hidx⟩ := ih (show (a, m) ∈ arrivedIn rest from h)
      exact ⟨idx + 1, by simpa using hidx⟩
    | depart b =>
      obtain ⟨idx, hidx⟩ := ih (show (a, m) ∈ arrivedIn rest from h)
      exact ⟨idx + 1, by simpa using hidx⟩

theorem grantedIn_getElem : ∀ {l : List QEv} {x : Nat},
    x ∈ grantedIn l → ∃ idx : Nat, l[idx]? = some (QEv.grant x) := by
  intro l
  induction l with
  | nil => intro x h; cases h
  | cons e rest ih =>
    intro x h
    cases e with
    | grant b =>
      rcases List.mem_cons.mp (show x ∈ b :: grantedIn rest from h) with h | h
      · subst h
        exact ⟨0, by simp⟩
      · obtain ⟨idx, hidx⟩ := ih h
        exact ⟨idx + 1, by simpa using hidx⟩
    | arrive b mb =>
      obtain ⟨idx, hidx⟩ := ih (show x ∈ grantedIn rest from h)
      exact ⟨idx + 1, by simpa using hidx⟩
    | depart b =>
      obtain ⟨idx, hidx⟩ := ih (show x ∈ grantedIn rest from h)
      exact ⟨idx + 1, by simpa using hidx⟩

theorem getElem_take_some {α : Type} {l : List α} {n i : Nat} {a : α}
    (h : (l.take n)[i]? = some a) : i < n ∧ l[i]? = some a := by
  have hi : i < n := by
    by_contra hge
    push_neg at hge
    rw [List.getElem?_take_eq_none hge] at h
    cases h
  refine ⟨hi, ?_⟩
  rw [← List.getElem?_take_of_lt hi]
  exact h

/-- Arrival events at increasing trace positions produce entries in order in
the arrival list. -/
theorem arrivedIn_order :
    ∀ (tr : List QEv) (i j : Nat) (w : Nat) (mw : Mode) (x : Nat) (mx : Mode),
      i < j → tr[i]? = some (.arrive w mw) → tr[j]? = some (.arrive x mx) →
      ∃ B1 B2, arrivedIn tr = B1 ++ (w, mw) :: B2 ∧ (x, mx) ∈ B2 := by
  intro tr
  induction tr with
  | nil =>
    intro i j w mw x mx hij hi hj
    simp at hi
  | cons e rest ih =>
    intro i j w mw x mx hij hi hj
    cases i with
    | zero =>
      rw [List.getElem?_cons_zero] at hi
      injection hi with hi
      subst hi
      cases j with
      | zero => omega
      | succ j' =>
        rw [List.getElem?_cons_succ] at hj
        have hmem : (x, mx) ∈ arrivedIn rest := arrivedIn_mem (List.getElem?_mem hj)
        exact ⟨[], arrivedIn rest, by simp [arrivedIn], hmem⟩
    | succ i' =>
      cases j with
      | zero => omega
      | succ j' =>
        rw [List.getElem?_cons_succ] at hi hj
        obtain ⟨B1, B2, hB, hmem⟩ := ih i' j' w mw x mx (by omega) hi hj
        cases e with
        | arrive a am => exact ⟨(a, am) :: B1, B2, by simp [arrivedIn, hB], hmem⟩
        | grant a => exact ⟨B1, B2, by simpa [arrivedIn] using hB, hmem⟩
        | depart a => exact ⟨B1, B2, by simpa [arrivedIn] using hB, hmem⟩

/-- Writer priority: once a read-write request is queued, any request that
arrives after it is granted only after the writer has been granted. -/
theorem qfair_main : ∀ (tr : List QEv) (i j k : Nat) (w x : Nat) (mx : Mode),
    ValidQTrace tr →
    tr[i]? = some (.arrive w .rw) → tr[j]? = some (.arrive x mx) → i < j →
    tr[k]? = some (.grant x) →
    ∃ k', k' < k ∧ tr[k']? = some (.grant w) := by
  intro tr i j k w x mx hv hw hx hij hk
  by_contra hno
  push_neg at hno
  have hval : (runM qstep qInit tr).isSome := hv
  obtain ⟨sk1, hsk1⟩ := Option.isSome_iff_exists.mp (stA_isSome_of_run _ _ _ hval (k + 1))
  obtain ⟨sk, hsk, hstep⟩ := stA_step_at qstep qInit tr hk hsk1
  obtain ⟨m, hql, hnoRw, hgOk, hq', ha', hs'⟩ := qstep_grant_guard hstep
  have hskrun : runM qstep qInit (tr.take k) = some sk := hsk
  obtain ⟨hQ, hG, hS1, hS2, hND⟩ := queue_char (tr.take k) sk hskrun
  have hxq : (x, m) ∈ sk.queue := qlookup_mem hql
  have hxarr : x ∈ (arrivedIn (tr.take k)).map Prod.fst := by
    rw [hQ] at hxq
    exact List.mem_map_of_mem _ (List.mem_of_mem_filter hxq)
  have hjk : j < k := by
    by_contra hjk2
    push_neg at hjk2
    obtain ⟨p, hp, hpe⟩ := List.mem_map.mp hxarr
    obtain ⟨x0, m0⟩ := p
    simp only at hpe
    subst hpe
    obtain ⟨idx, hidx⟩ := arrivedIn_getElem hp
    obtain ⟨hidxk, hidxtr⟩ := getElem_take_some hidx
    exact arrive_unique hv hidxtr hx (by omega)
  have hik : i < k := by omega
  have hwg : w ∉ grantedIn (tr.take k) := by
    intro hg
    obtain ⟨k', hk'⟩ := grantedIn_getElem hg
    obtain ⟨hk'lt, hk'eq⟩ := getElem_take_some hk'
    exact hno k' hk'lt hk'eq
  obtain ⟨B1, B2, hB, hmemB2⟩ := arrivedIn_order (tr.take k) i j w .rw x mx hij
    (by rw [List.getElem?_take_of_lt hik]; exact hw)
    (by rw [List.getElem?_take_of_lt hjk]; exact hx)
  have hxB2 : x ∈ B2.map Prod.fst := List.mem_map_of_mem _ hmemB2
  have hndB : ((B1 ++ (w, Mode.rw) :: B2).map Prod.fst).Nodup := by
    rw [← hB]
    exact hND
  rw [List.map_append, List.map_cons] at hndB
  rw [List.nodup_append] at hndB
  obtain ⟨hnd1, hnd2, hdisj⟩ := hndB
  have hwx : w ≠ x := by
    intro hEq
    subst hEq
    exact (List.nodup_cons.mp hnd2).1 hxB2
  have hQdec : sk.queue =
      B1.filter (fun q => decide (q.1 ∉ grantedIn (tr.take k))) ++
        (w, Mode.rw) :: B2.filter (fun q => decide (q.1 ∉ grantedIn (tr.take k))) := by
    rw [hQ, hB, List.filter_append]
    congr 1
    rw [List.filter_cons]
    simp [hwg]
  have hrB1 := noRwAhead_before sk.queue x hnoRw _ w _ hQdec hwx
  have hxB1 : x ∈ B1.map Prod.fst := by
    obtain ⟨p, hp, hpe⟩ := List.mem_map.mp hrB1
    exact List.mem_map.mpr ⟨p, List.mem_of_mem_filter hp, hpe⟩
  exact hdisj hxB1 (List.mem_cons_of_mem _ hxB2)

/-- C9: Writer-priority fairness.  In every valid admission trace, once a
read-write request is queued, no request arriving after it (read-only or
read-write) is granted before the writer is granted — this simultaneously
gives that newly arriving readers queue behind the pending writer and that
queued writers are granted FIFO by request order; and a request that is
already admitted can always depart (finish normally). -/
theorem writer_priority_fifo :
    (∀ (tr : List QEv) (i j k : Nat) (w x : Nat) (mx : Mode),
        ValidQTrace tr →
        tr[i]? = some (.arrive w .rw) → tr[j]? = some (.arrive x mx) → i < j →
        tr[k]? = some (.grant x) →
        ∃ k', k' < k ∧ tr[k']? = some (.grant w))
    ∧ (∀ (s : QState) (id : Nat) (m : Mode),
        (id, m) ∈ s.active → (qstep s (.depart id)).isSome = true) := by
  constructor
  · exact qfair_main
  · intro s id m hmem
    have h := qlookup_isSome_of_mem hmem
    simp only [qstep]
    cases hql : qlookup s.active id with
    | none =>
      rw [hql] at h
      cases h
    | some m2 => rfl

theorem writer_priority_fifo_witness :
    ValidQTrace qDemo
    ∧ qDemo[0]? = some (.arrive 1 .rw)
    ∧ qDemo[1]? = some (.arrive 2 .ro)
    ∧ qDemo[4]? = some (.grant 2)
    ∧ (∃ k', k' < 4 ∧ qDemo[k']? = some (.grant 1))
    ∧ (5, Mode.ro) ∈ qActiveDemo.active
    ∧ (qstep qActiveDemo (.depart 5)).isSome = true := by
  refine ⟨by unfold ValidQTrace; decide, by decide, by decide, by decide, ?_, by decide, ?_⟩
  · exact writer_priority_fifo.1 qDemo 0 1 4 1 2 .ro (by unfold ValidQTrace; decide)
      (by decide) (by decide) (by decide) (by decide)
  · exact writer_priority_fifo.2 qActiveDemo 5 Mode.ro (by decide)

/-- C10: Result-type guarantee at the public interface.  At the failing input
`AccessorType = int(const FResource&)`, `ResourceType = FResource`, the
source's deduction expression
`decltype(std::declval<AccessorType>(std::declval<ResourceType>()))` is
ill-formed — `std::declval` takes no arguments, so no result type is deduced
(`none`) — while the deduction the source's own comment describes ("the
result of `Accessor(Resource)` call") yields exactly the accessor's return
type, `int`, and yields `void` for the example's void-returning read-write
accessor. -/
theorem async_result_type_bug :
    sourceResultType roAccTy .resource = none
    ∧ intendedResultType roAccTy .resource = some .intT
    ∧ intendedResultType rwVoidAccTy .resource = some .void := by
  refine ⟨rfl, rfl, rfl⟩

end AsyncResource
